import Mathlib

/-!
# Verification of the Obsidian OCR tagger core (`src/Obsidian_OCR.py`)

A shallow embedding of the pure string-processing core of the tool:
text cleaning after recognition (`perform_ocr`), the `.resources` path
correction and bounded retry, Obsidian wiki-link extraction, attachment
path resolution, and the YAML-front-matter merge (`update_markdown_file`),
together with the per-document pipeline (`process_markdown_file`).

Strings are modelled as `List Char` (`Str`).  The external collaborators
(the Tesseract recognition engine, Unicode NFD normalization, thread-pool
completion order) are parameters: an `oracle : Str → Except Str Str`
standing for `image_to_string` (error = the exception message `str(e)`),
`nfd : Str → Str` standing for `unicodedata.normalize('NFD', ·)`, and
`sched : List (Option Str) → List (Option Str)` standing for the
`as_completed` collection order (assumed to be a permutation).
-/

set_option autoImplicit false

abbrev Str := List Char

/-- Python's whitespace class for `str` (the characters accepted by
`str.isspace` / matched by `\s` on text patterns). -/
def isPyWs (c : Char) : Bool :=
  c == ' ' || c == '\t' || c == '\n' || c == '\r' || c == '\x0b' || c == '\x0c' ||
  c == '\x1c' || c == '\x1d' || c == '\x1e' || c == '\x1f' || c == '\x85' || c == '\xa0' ||
  c == ' ' || (0x2000 ≤ c.toNat && c.toNat ≤ 0x200a) || c == ' ' ||
  c == ' ' || c == ' ' || c == ' ' || c == '　'

/-- Python `str.strip()`: remove leading and trailing whitespace. -/
def pyStrip (s : Str) : Str :=
  ((s.dropWhile isPyWs).reverse.dropWhile isPyWs).reverse

/-- Fuelled worker for `pyReplace`; the fuel is always at least the length
of the remaining string, so the `0` case is never reached on the call
from `pyReplace`. -/
def replaceSubF (pat repl : Str) : Nat → Str → Str
  | 0, s => s
  | _ + 1, [] => []
  | fuel + 1, c :: cs =>
    if pat.isPrefixOf (c :: cs) then
      repl ++ replaceSubF pat repl fuel (cs.drop (pat.length - 1))
    else
      c :: replaceSubF pat repl fuel cs

/-- Python `s.replace(pat, repl)`: replace non-overlapping occurrences
left to right, continuing after each replacement. -/
def pyReplace (s pat repl : Str) : Str := replaceSubF pat repl s.length s

/-- The cleaning chain of `perform_ocr` (line 128 of the source):
`ocr_text.strip().replace('\n', ' ').replace('\r', '').replace('\t', ' ')
.replace('  ', ' ').replace('"', "'").replace('\\', '\\\\')`. -/
def cleanL (s : Str) : Str :=
  let s1 := pyStrip s
  let s2 := pyReplace s1 ['\n'] [' ']
  let s3 := pyReplace s2 ['\r'] []
  let s4 := pyReplace s3 ['\t'] [' ']
  let s5 := pyReplace s4 [' ', ' '] [' ']
  let s6 := pyReplace s5 ['"'] ['\'']
  pyReplace s6 ['\\'] ['\\', '\\']

/-- Modelled from the spec (C3 reference definition): like `cleanL`, but
each carriage return is replaced by a single space instead of being
deleted — "collapse newlines and carriage returns to single spaces". -/
def cleanSpecL (s : Str) : Str :=
  let s1 := pyStrip s
  let s2 := pyReplace s1 ['\n'] [' ']
  let s3 := pyReplace s2 ['\r'] [' ']
  let s4 := pyReplace s3 ['\t'] [' ']
  let s5 := pyReplace s4 [' ', ' '] [' ']
  let s6 := pyReplace s5 ['"'] ['\'']
  pyReplace s6 ['\\'] ['\\', '\\']

/-- String-level wrapper for the cleaning step of `perform_ocr`. -/
def cleanOcrText (s : String) : String := ⟨cleanL s.toList⟩

/-- C3: the cleaning step is claimed to replace each carriage return with a
single space.  The code (`.replace('\r', '')`) deletes carriage returns
instead, contradicting the function's own docstring ("replaces newline
characters and carriage returns with a space").  On the raw recognition
output `"a\rb"` the code produces `"ab"` while the claimed reference
cleaning produces `"a b"`. -/
theorem c3_clean_carriage_return_divergence :
    cleanL "a\rb".toList = "ab".toList ∧
    cleanSpecL "a\rb".toList = "a b".toList ∧
    cleanL "a\rb".toList ≠ cleanSpecL "a\rb".toList := by
  decide

/-- Python's substring test `pat in s`: scan for `pat` as a prefix at each
position. -/
def containsSub (pat : Str) : Str → Bool
  | [] => pat.isEmpty
  | c :: cs => pat.isPrefixOf (c :: cs) || containsSub pat cs

theorem containsSub_iff_infix (pat : Str) : ∀ s : Str, containsSub pat s = true ↔ pat <:+: s
  | [] => by
      simp only [containsSub, List.isEmpty_iff, List.infix_nil]
  | c :: cs => by
      rw [containsSub]
      simp only [Bool.or_eq_true, List.isPrefixOf_iff_prefix, containsSub_iff_infix pat cs]
      exact List.infix_cons_iff.symm

theorem containsSub_eq_false_iff (pat s : Str) : containsSub pat s = false ↔ ¬ pat <:+: s := by
  rw [← containsSub_iff_infix, Bool.not_eq_true, Bool.eq_false_iff, ne_eq, Bool.not_eq_true]

theorem take_append_of_le {a z : Str} {n : Nat} (h : a.length ≤ n) :
    (a ++ z).take n = a ++ z.take (n - a.length) := by
  rw [List.take_append_eq_append_take, List.take_of_length_le h]

theorem drop_append_of_le {a z : Str} {n : Nat} (h : a.length ≤ n) :
    (a ++ z).drop n = z.drop (n - a.length) := by
  rw [List.drop_append_eq_append_drop, List.drop_of_length_le h, List.nil_append]

/-- Decomposing a prefix of an append. -/
theorem prefix_append_cases {p X Y : Str} (h : p <+: X ++ Y) :
    (p.length ≤ X.length ∧ p <+: X) ∨
      (X.length < p.length ∧ X <+: p ∧ p.drop X.length <+: Y) := by
  obtain ⟨t, ht⟩ := h
  by_cases hl : p.length ≤ X.length
  · refine Or.inl ⟨hl, ⟨t.take (X.length - p.length), ?_⟩⟩
    have htake := congrArg (List.take X.length) ht
    rw [List.take_left, take_append_of_le hl] at htake
    exact htake
  · push_neg at hl
    have htake := congrArg (List.take p.length) ht
    rw [take_append_of_le (le_refl p.length), Nat.sub_self, List.take_zero,
      List.append_nil] at htake
    rw [take_append_of_le (by omega : X.length ≤ p.length)] at htake
    refine Or.inr ⟨hl, ⟨Y.take (p.length - X.length), htake.symm⟩, ?_⟩
    have hdrop := congrArg (List.drop X.length) htake
    rw [List.drop_left] at hdrop
    rw [hdrop]
    exact List.take_prefix _ _

/-- Decomposing an occurrence of `pat` inside an append: it lies in the
left part, in the right part, or spans the junction. -/
theorem infix_append_cases {pat X Y : Str} (h : pat <:+: X ++ Y) :
    pat <:+: X ∨ pat <:+: Y ∨
      ∃ k, 0 < k ∧ k < pat.length ∧ pat.take k <:+ X ∧ pat.drop k <+: Y := by
  obtain ⟨a, b, hab⟩ := h
  rw [List.append_assoc] at hab
  have htake := congrArg (List.take X.length) hab
  have hdrop := congrArg (List.drop X.length) hab
  rw [List.take_left] at htake
  rw [List.drop_left] at hdrop
  by_cases hXa : X.length ≤ a.length
  · refine Or.inr (Or.inl ⟨a.drop X.length, b, ?_⟩)
    rw [List.append_assoc, ← hdrop, List.drop_append_eq_append_drop,
      Nat.sub_eq_zero_of_le hXa, List.drop_zero]
  · push_neg at hXa
    by_cases hfit : a.length + pat.length ≤ X.length
    · refine Or.inl ⟨a, b.take (X.length - a.length - pat.length), ?_⟩
      rw [List.append_assoc]
      conv_rhs => rw [← htake]
      rw [take_append_of_le (by omega : a.length ≤ X.length),
        take_append_of_le (by omega : pat.length ≤ X.length - a.length)]
    · push_neg at hfit
      refine Or.inr (Or.inr ⟨X.length - a.length, by omega, by omega, ⟨a, ?_⟩, ⟨b, ?_⟩⟩)
      · conv_rhs => rw [← htake]
        rw [take_append_of_le (by omega : a.length ≤ X.length),
          List.take_append_eq_append_take,
          (by omega : X.length - a.length - pat.length = 0), List.take_zero,
          List.append_nil]
      · rw [← hdrop, drop_append_of_le (by omega : a.length ≤ X.length),
          List.drop_append_eq_append_drop,
          (by omega : X.length - a.length - pat.length = 0), List.drop_zero]

/-- The `'.resources'` resource-folder marker. -/
def resMarker : Str := ".resources".toList

/-- The fragment of `str(e)` that identifies a not-found error. -/
def notFoundMsg : Str := "No such file or directory".toList

/-- Python `s.split(sep)` for a one-character separator. -/
def pySplit (sep : Char) : Str → List Str
  | [] => [[]]
  | c :: cs =>
    match pySplit sep cs with
    | [] => [[]]
    | h :: t => if c = sep then [] :: h :: t else (c :: h) :: t

/-- Python `sep.join(parts)` for a one-character separator. -/
def pyJoin (sep : Char) : List Str → Str
  | [] => []
  | [a] => a
  | a :: b :: r => a ++ sep :: pyJoin sep (b :: r)

/-- `modify_image_path`: split on `os.sep` (`/` on the authoring platform),
drop every segment containing `'.resources'`, and re-join. -/
def modify_image_path (image_path : Str) : Str :=
  pyJoin '/' ((pySplit '/' image_path).filter (fun part => !containsSub resMarker part))

/-- A pattern that avoids the separator and occurs in no part does not
occur in the join of the parts. -/
theorem not_infix_pyJoin {pat : Str} {sep : Char} (hne : pat ≠ []) (hsep : sep ∉ pat) :
    ∀ parts : List Str, (∀ part ∈ parts, ¬ pat <:+: part) → ¬ pat <:+: pyJoin sep parts := by
  intro parts
  induction parts with
  | nil =>
    intro _ h
    simp only [pyJoin, List.infix_nil] at h
    exact hne h
  | cons a t ih =>
    intro hparts h
    match t with
    | [] =>
      simp only [pyJoin] at h
      exact hparts a (List.mem_cons_self a _) h
    | b :: r =>
      simp only [pyJoin] at h
      rcases infix_append_cases h with hA | hR | ⟨k, hk0, hklt, _, hdropPre⟩
      · exact hparts a (List.mem_cons_self a _) hA
      · rcases List.infix_cons_iff.mp hR with hPre | hJ
        · obtain ⟨p, ps, rfl⟩ := List.exists_cons_of_ne_nil hne
          obtain ⟨hp, -⟩ := List.cons_prefix_cons.mp hPre
          exact hsep (hp ▸ List.mem_cons_self p ps)
        · exact ih (fun part hp => hparts part (List.mem_cons_of_mem a hp)) hJ
      · match hE : pat.drop k with
        | [] =>
          have := congrArg List.length hE
          simp only [List.length_drop, List.length_nil] at this
          omega
        | q :: qs =>
          rw [hE] at hdropPre
          obtain ⟨hq, -⟩ := List.cons_prefix_cons.mp hdropPre
          have hqmem : q ∈ pat := List.drop_subset k pat (hE ▸ List.mem_cons_self q qs)
          exact hsep (hq ▸ hqmem)

/-- The corrected path produced by `modify_image_path` never contains the
`'.resources'` marker: the marker has no `/`, so any occurrence in the
re-joined path would lie inside a single kept segment, and kept segments
do not contain it. -/
theorem modify_no_marker (p : Str) : containsSub resMarker (modify_image_path p) = false := by
  rw [containsSub_eq_false_iff]
  apply not_infix_pyJoin (by decide) (by decide)
  intro part hpart
  rw [← containsSub_eq_false_iff]
  have := (List.mem_filter.mp hpart).2
  simp only [Bool.not_eq_true'] at this
  exact this

/-- `perform_ocr`: invoke the external recognition `oracle` (standing for
`Image.open` plus `image_to_string`; an `Except.error e` carries the
exception text `str(e)`), clean the result, and — when the error is a
not-found error and the path contains `'.resources'` — recurse once on
the corrected path, exactly as the source does.  The recursion is well
founded because the corrected path never contains the marker. -/
def perform_ocr (oracle : Str → Except Str Str) (image_path : Str) : Option Str :=
  match oracle image_path with
  | .ok t => some (cleanL t)
  | .error e =>
    if containsSub notFoundMsg e && containsSub resMarker image_path then
      perform_ocr oracle (modify_image_path image_path)
    else
      none
termination_by (if containsSub resMarker image_path then 1 else 0)
decreasing_by
  rename_i h
  simp only [Bool.and_eq_true] at h
  simp [modify_no_marker, h.2]

/-- One-step unfolding equation for `perform_ocr`. -/
theorem perform_ocr_eq (oracle : Str → Except Str Str) (image_path : Str) :
    perform_ocr oracle image_path =
      match oracle image_path with
      | .ok t => some (cleanL t)
      | .error e =>
        if containsSub notFoundMsg e && containsSub resMarker image_path then
          perform_ocr oracle (modify_image_path image_path)
        else
          none := by
  rw [perform_ocr]

/-- Modelled from the spec (§4.3 / C6 reading): the Recognition Adapter as
a single bounded conditional retry — on a not-found error for a path
containing the resource-folder marker, try the corrected path once; any
failure of the retry yields an absent result. -/
def perform_ocr_retry_once (oracle : Str → Except Str Str) (image_path : Str) : Option Str :=
  match oracle image_path with
  | .ok t => some (cleanL t)
  | .error e =>
    if containsSub notFoundMsg e && containsSub resMarker image_path then
      match oracle (modify_image_path image_path) with
      | .ok t => some (cleanL t)
      | .error _ => none
    else
      none

/-- C6: the adapter retries at most once.  The corrected path obtained by
dropping every `'.resources'` segment never contains the marker again, so
the recursive call in `perform_ocr` cannot recurse further: for every
oracle and every path the adapter equals the single-retry adapter of the
spec, and a failing retry yields an absent result. -/
theorem c6_retry_exactly_once (oracle : Str → Except Str Str) (image_path : Str) :
    perform_ocr oracle image_path = perform_ocr_retry_once oracle image_path ∧
      containsSub resMarker (modify_image_path image_path) = false := by
  refine ⟨?_, modify_no_marker image_path⟩
  rw [perform_ocr_eq, perform_ocr_retry_once]
  cases oracle image_path with
  | ok t => rfl
  | error e =>
    dsimp only
    by_cases hc : (containsSub notFoundMsg e && containsSub resMarker image_path) = true
    · rw [if_pos hc, if_pos hc, perform_ocr_eq]
      cases oracle (modify_image_path image_path) with
      | ok t => rfl
      | error e2 =>
        dsimp only
        rw [modify_no_marker, Bool.and_false]
        simp
    · rw [if_neg hc, if_neg hc]

/-- Index just past the last `/` of `p` (`p.rfind('/') + 1`, `0` when there
is no separator), as used by `posixpath.dirname` and `basename`. -/
def lastSepIdx (p : Str) : Nat :=
  match p.reverse.findIdx? (· == '/') with
  | some j => p.length - j
  | none => 0

/-- `os.path.dirname` for POSIX paths. -/
def pyDirname (p : Str) : Str :=
  let head := p.take (lastSepIdx p)
  if !head.isEmpty && head.any (· != '/') then
    (head.reverse.dropWhile (· == '/')).reverse
  else
    head

/-- `os.path.basename` for POSIX paths. -/
def pyBasename (p : Str) : Str := p.drop (lastSepIdx p)

/-- Index just past the last `.` of `p`, `0` when there is no dot. -/
def lastDotIdx (p : Str) : Nat :=
  match p.reverse.findIdx? (· == '.') with
  | some j => p.length - j
  | none => 0

/-- The root part of `os.path.splitext(p)[0]`: cut at the last dot when it
comes after the last separator and at least one character between them is
not a dot; otherwise the whole path. -/
def pySplitextRoot (p : Str) : Str :=
  let si := lastSepIdx p
  let di := lastDotIdx p
  if si < di ∧ ((p.drop si).take (di - 1 - si)).any (· != '.') then
    p.take (di - 1)
  else
    p

/-- `find_linked_attachment`, parameterised by the configured attachment
folder name `AF` (the `ATTACHMENT_FOLDER` global) and the external
Unicode NFD normalization `nfd`. -/
def find_linked_attachment (nfd : Str → Str) (AF md_path image_link : Str) : Str :=
  if containsSub AF image_link = false then
    pyDirname md_path ++ ['/'] ++ AF ++ ['/'] ++
      pyReplace (pySplitextRoot (pyBasename md_path)) [' '] ['_'] ++
      ".resources/".toList ++ pyBasename image_link
  else
    pyDirname md_path ++ ['/'] ++
      pyJoin '/' ((pySplit '/' image_link).filter
        (fun i => !(((pySplit '/' md_path).map nfd).contains (nfd i))))

/-- Modelled from the spec (§4.2 step 1, C4): default-resource provenance —
"`<document's directory>/<attachment-folder>/<document basename with
spaces as underscores>.resources/<basename of reference token>`". -/
def resolver_default_spec (AF md_path image_link : Str) : Str :=
  pyDirname md_path ++ ['/'] ++ AF ++ ['/'] ++
    pyReplace (pySplitextRoot (pyBasename md_path)) [' '] ['_'] ++
    ".resources/".toList ++ pyBasename image_link

/-- Modelled from the spec (§4.2 step 2, C5): explicit-folder provenance —
keep exactly the reference segments whose NFD form differs from the NFD
form of every segment of the document's path, rejoined with `/` under the
document's directory. -/
def resolver_explicit_spec (nfd : Str → Str) (md_path image_link : Str) : Str :=
  pyDirname md_path ++ ['/'] ++
    pyJoin '/' ((pySplit '/' image_link).filter
      (fun seg => (pySplit '/' md_path).all (fun part => !(nfd seg == nfd part))))

/-- C4: when the attachment-folder name does not occur in the reference
token, the resolver returns the default-resource path of the spec. -/
theorem c4_resolver_default (nfd : Str → Str) (AF md_path image_link : Str)
    (h : containsSub AF image_link = false) :
    find_linked_attachment nfd AF md_path image_link =
      resolver_default_spec AF md_path image_link := by
  rw [find_linked_attachment, if_pos h, resolver_default_spec]

/-- Witness for C4 at the claim's own example: document `Notes/Trip.md`,
reference `Trip.resources/photo.png`, attachment folder `Attachments`. -/
theorem c4_resolver_default_witness :
    containsSub "Attachments".toList "Trip.resources/photo.png".toList = false ∧
      find_linked_attachment id "Attachments".toList "Notes/Trip.md".toList
          "Trip.resources/photo.png".toList =
        "Notes/Attachments/Trip.resources/photo.png".toList :=
  ⟨by decide,
    (c4_resolver_default id "Attachments".toList "Notes/Trip.md".toList
      "Trip.resources/photo.png".toList (by decide)).trans (by decide)⟩

theorem not_contains_map_eq_all (nfd : Str → Str) (y : Str) (parts : List Str) :
    (!(parts.map nfd).contains (nfd y)) = parts.all (fun part => !(nfd y == nfd part)) := by
  induction parts with
  | nil => rfl
  | cons p ps ih =>
    simp only [List.map_cons, List.contains_cons, List.all_cons, Bool.not_or, ih]

/-- C5: when the attachment-folder name occurs in the reference token, the
resolver keeps exactly the reference segments whose NFD normalization
matches no NFD-normalized segment of the document's path. -/
theorem c5_resolver_explicit (nfd : Str → Str) (AF md_path image_link : Str)
    (h : containsSub AF image_link = true) :
    find_linked_attachment nfd AF md_path image_link =
      resolver_explicit_spec nfd md_path image_link := by
  rw [find_linked_attachment, if_neg (by simp [h]), resolver_explicit_spec]
  have hfil : (pySplit '/' image_link).filter
        (fun i => !(((pySplit '/' md_path).map nfd).contains (nfd i))) =
      (pySplit '/' image_link).filter
        (fun seg => (pySplit '/' md_path).all (fun part => !(nfd seg == nfd part))) :=
    List.filter_congr (fun seg _ => not_contains_map_eq_all nfd seg (pySplit '/' md_path))
  rw [hfil]

/-- Witness for C5 at the claim's own example: document `Notes/Trip.md`,
reference `Attachments/Trip/photo.png`, attachment folder `Attachments`
(no reference segment is NFD-equal to a document path segment here, so
all are kept). -/
theorem c5_resolver_explicit_witness :
    containsSub "Attachments".toList "Attachments/Trip/photo.png".toList = true ∧
      find_linked_attachment id "Attachments".toList "Notes/Trip.md".toList
          "Attachments/Trip/photo.png".toList =
        "Notes/Attachments/Trip/photo.png".toList :=
  ⟨by decide,
    (c5_resolver_explicit id "Attachments".toList "Notes/Trip.md".toList
      "Attachments/Trip/photo.png".toList (by decide)).trans (by decide)⟩

/-- The idempotency marker and front-matter key, `"OCR:"`. -/
def ocrKey : Str := "OCR:".toList

/-- The configured image extensions (`IMAGE_EXTENSIONS`), in tuple order. -/
def IMAGE_EXTENSIONS : List Str :=
  [".png".toList, ".jpg".toList, ".jpeg".toList, ".gif".toList, ".bmp".toList,
    ".tiff".toList, ".tif".toList]

/-- Case-insensitive literal match (`re.IGNORECASE`, ASCII pattern chars):
returns the consumed source characters and the rest. -/
def matchCI : Str → Str → Option (Str × Str)
  | [], s => some ([], s)
  | _ :: _, [] => none
  | p :: ps, c :: cs =>
    if c.toLower = p then
      (matchCI ps cs).map (fun a => (c :: a.1, a.2))
    else
      none

/-- Try the extension alternatives in order; an alternative succeeds only
when the matched extension is immediately followed by `]]` (otherwise the
regex backtracks to the next alternative). -/
def matchExtBrackets : List Str → Str → Option (Str × Str)
  | [], _ => none
  | a :: alts, s =>
    match matchCI a s with
    | some (ext, r) =>
      if [']', ']'].isPrefixOf r then some (ext, r.drop 2)
      else matchExtBrackets alts s
    | none => matchExtBrackets alts s

/-- The lazy group `([^]]+?(?:ext…))` followed by `]]`: consume one non-`]`
character, then at each position first try to finish with an extension and
`]]`, else consume another non-`]` character. -/
def imgToken (acc : Str) : Str → Option (Str × Str)
  | [] => none
  | c :: cs =>
    if c = ']' then none
    else
      match matchExtBrackets IMAGE_EXTENSIONS cs with
      | some (ext, r) => some (acc ++ c :: ext, r)
      | none => imgToken (acc ++ [c]) cs

/-- Fuelled scan of `re.findall` for the wiki-image pattern
`!\[\[([^]]+?(?:ext…))\]\]`: at each position try to match; on success
emit the group and continue after the match, otherwise advance one
character.  The fuel is always at least the remaining length. -/
def findAllLinksF : Nat → Str → List Str
  | 0, _ => []
  | _ + 1, [] => []
  | fuel + 1, c :: cs =>
    match c, cs with
    | '!', '[' :: '[' :: s =>
      (match imgToken [] s with
        | some (tok, rest) => tok :: findAllLinksF fuel rest
        | none => findAllLinksF fuel cs)
    | _, _ => findAllLinksF fuel cs

def findAllLinks (s : Str) : List Str := findAllLinksF s.length s

/-- `extract_image_links` as a function of the document's text: the empty
list when the overwrite flag is off and the idempotency marker `OCR:`
occurs anywhere in the content, otherwise all wiki-image tokens in text
order. -/
def extract_image_links (content : Str) (overwrite : Bool) : List Str :=
  if !overwrite && containsSub ocrKey content then [] else findAllLinks content

/-- `"---\n"`, the opening literal of `^---\n(.*?)\n---`. -/
def dashesNl : Str := "---\n".toList

/-- `"\n---"`, the closing literal of `^---\n(.*?)\n---`. -/
def nlDashes : Str := "\n---".toList

/-- Split at the first occurrence of `"\n---"` (the lazy `(.*?)` with
`re.DOTALL`): `some (before, after)` when the string contains `"\n---"`. -/
def splitNlDashes : Str → Option (Str × Str)
  | [] => none
  | c :: cs =>
    if nlDashes.isPrefixOf (c :: cs) then some ([], cs.drop 3)
    else (splitNlDashes cs).map (fun r => (c :: r.1, r.2))

/-- `re.search(r'^---\n(.*?)\n---', content, re.DOTALL)`: `some (fm, after)`
when the content starts with `---\n` and contains `\n---` afterwards;
`fm` is group 1 (up to the earliest `\n---`) and `after` everything after
the match. -/
def findFrontMatter (content : Str) : Option (Str × Str) :=
  if dashesNl.isPrefixOf content then splitNlDashes (content.drop 4) else none

/-- Split a line at its last `"`: `some (before, after)` with
`line = before ++ '"' :: after` and no `"` in `after`. -/
def splitLastQuote : Str → Option (Str × Str)
  | [] => none
  | c :: cs =>
    match splitLastQuote cs with
    | some r => some (c :: r.1, r.2)
    | none => if c = '"' then some ([], cs) else none

/-- One attempt of the inner pattern `(OCR:\s*").*(")` at the current
position: on success, `some (g1, inner, rest)` where `g1` is group 1
(`OCR:` + greedy whitespace + `"`), `inner` the greedy `.*` up to the
last `"` of the line, and `rest` the remainder after that quote. -/
def tryMatchOcr (s : Str) : Option (Str × Str × Str) :=
  if ocrKey.isPrefixOf s then
    match (s.drop 4).dropWhile isPyWs with
    | [] => none
    | q :: tail =>
      if q = '"' then
        match splitLastQuote (tail.takeWhile (· != '\n')) with
        | some r =>
          some (ocrKey ++ (s.drop 4).takeWhile isPyWs ++ ['"'], r.1,
            r.2 ++ tail.dropWhile (· != '\n'))
        | none => none
      else
        none
  else
    none

/-- Fuelled scan of `re.sub(r'(OCR:\s*").*(")', λ m, m.group(1) + T +
m.group(2), fm)`: replace every match by group 1, the new text, and the
closing quote; on failure advance one character.  The fuel is always at
least the remaining length. -/
def subAllOcrF (T : Str) : Nat → Str → Str
  | 0, s => s
  | _ + 1, [] => []
  | fuel + 1, c :: cs =>
    match tryMatchOcr (c :: cs) with
    | some (g1, _, rest) => g1 ++ T ++ '"' :: subAllOcrF T fuel rest
    | none => c :: subAllOcrF T fuel cs

def subAllOcr (T fm : Str) : Str := subAllOcrF T fm.length fm

/-- Does the inner pattern `(OCR:\s*").*(")` match anywhere in `fm`? -/
def hasOcrQuoted : Str → Bool
  | [] => false
  | c :: cs => (tryMatchOcr (c :: cs)).isSome || hasOcrQuoted cs

def isOctalDigit (c : Char) : Bool := '0' ≤ c && c ≤ '7'

def isAsciiLetter (c : Char) : Bool := ('a' ≤ c && c ≤ 'z') || ('A' ≤ c && c ≤ 'Z')

def octVal (c : Char) : Nat := c.toNat - '0'.toNat

/-- Python's processing of a textual replacement template
(`sre_parse.parse_template`), as applied by the outer
`re.sub(r'^---\n(.*?)\n---', '---\n' + ufm + '\n---', content, 1, DOTALL)`.
`g1` is the match's group 1 and `whole` the whole match (for group
references `\1` and `\g<0>`); `none` models `re.error` (bad escape or bad
group reference), in which case the exception propagates and the file is
not rewritten. -/
def templExpandF (g1 whole : Str) : Nat → Str → Option Str
  | 0, _ => none
  | _ + 1, [] => some []
  | fuel + 1, c :: rest =>
    if c = '\\' then
      match rest with
      | [] => none
      | d :: cs =>
        if d = '\\' then (templExpandF g1 whole fuel cs).map ('\\' :: ·)
        else if d = 'a' then (templExpandF g1 whole fuel cs).map ('\x07' :: ·)
        else if d = 'b' then (templExpandF g1 whole fuel cs).map ('\x08' :: ·)
        else if d = 'f' then (templExpandF g1 whole fuel cs).map ('\x0c' :: ·)
        else if d = 'n' then (templExpandF g1 whole fuel cs).map ('\n' :: ·)
        else if d = 'r' then (templExpandF g1 whole fuel cs).map ('\r' :: ·)
        else if d = 't' then (templExpandF g1 whole fuel cs).map ('\t' :: ·)
        else if d = 'v' then (templExpandF g1 whole fuel cs).map ('\x0b' :: ·)
        else if d = 'g' then
          match cs with
          | '<' :: '0' :: '>' :: cs2 => (templExpandF g1 whole fuel cs2).map (whole ++ ·)
          | '<' :: '1' :: '>' :: cs2 => (templExpandF g1 whole fuel cs2).map (g1 ++ ·)
          | _ => none
        else if d = '0' then
          match cs with
          | d1 :: csA =>
            if isOctalDigit d1 then
              match csA with
              | d2 :: csB =>
                if isOctalDigit d2 then
                  (templExpandF g1 whole fuel csB).map
                    (Char.ofNat ((octVal d1 * 8 + octVal d2) % 256) :: ·)
                else
                  (templExpandF g1 whole fuel csA).map (Char.ofNat (octVal d1) :: ·)
              | [] => (templExpandF g1 whole fuel csA).map (Char.ofNat (octVal d1) :: ·)
            else
              (templExpandF g1 whole fuel cs).map ('\x00' :: ·)
          | [] => (templExpandF g1 whole fuel cs).map ('\x00' :: ·)
        else if d.isDigit then
          match cs with
          | d2 :: cs2 =>
            if d2.isDigit then
              match cs2 with
              | d3 :: cs3 =>
                if isOctalDigit d && isOctalDigit d2 && isOctalDigit d3 then
                  (templExpandF g1 whole fuel cs3).map
                    (Char.ofNat ((octVal d * 64 + octVal d2 * 8 + octVal d3) % 256) :: ·)
                else
                  none
              | [] => none
            else if d = '1' then (templExpandF g1 whole fuel cs).map (g1 ++ ·)
            else none
          | [] =>
            if d = '1' then (templExpandF g1 whole fuel cs).map (g1 ++ ·)
            else none
        else if isAsciiLetter d then none
        else (templExpandF g1 whole fuel cs).map ('\\' :: d :: ·)
    else
      (templExpandF g1 whole fuel rest).map (c :: ·)

/-- The template expansion at adequate fuel (the fuel argument only makes
the recursion structural; it is at least the template's length, and each
step consumes at least one template character). -/
def templExpand (g1 whole t : Str) : Option Str := templExpandF g1 whole (t.length + 1) t

/-- The serialized recognized-text field `OCR: "T"`. -/
def ocrField (T : Str) : Str := ocrKey ++ ' ' :: '"' :: (T ++ ['"'])

/-- `update_markdown_file` as a function of the document's text: `some c`
when the function completes and writes `c` back; `none` when the final
`re.sub` raises on its replacement template (built from the updated front
matter, whose backslashes are interpreted as template escapes), in which
case the file keeps its old content. -/
def update_markdown_file (content ocr_text : Str) : Option Str :=
  match findFrontMatter content with
  | some (fm, after) =>
    (templExpand fm (dashesNl ++ fm ++ nlDashes)
      (dashesNl ++ (if containsSub ocrKey fm then subAllOcr ocr_text fm
        else fm ++ '\n' :: ocrField ocr_text) ++ nlDashes)).map (· ++ after)
  | none =>
    some (dashesNl ++ ocrField ocr_text ++ nlDashes ++ '\n' :: content)

/-- The per-document recognition results, in scheduler completion order. -/
def collected_ocr_texts (nfd : Str → Str) (oracle : Str → Except Str Str)
    (sched : List (Option Str) → List (Option Str)) (AF : Str) (overwrite : Bool)
    (md_path content : Str) : List (Option Str) :=
  sched ((extract_image_links content overwrite).map
    (fun link => perform_ocr oracle (find_linked_attachment nfd AF md_path link)))

/-- `"".join(str(text) if text is not None else '' for text in ocr_texts)`. -/
def joinTexts (rs : List (Option Str)) : Str := (rs.map (fun r => r.getD [])).flatten

/-- The aggregated OCR text of `process_markdown_file`. -/
def aggregated_ocr_text (nfd : Str → Str) (oracle : Str → Except Str Str)
    (sched : List (Option Str) → List (Option Str)) (AF : Str) (overwrite : Bool)
    (md_path content : Str) : Str :=
  joinTexts (collected_ocr_texts nfd oracle sched AF overwrite md_path content)

/-- `process_markdown_file` as a function of the document's text: `none`
means the document file is left byte-for-byte unchanged (no write is
performed — the aggregate was empty, or the update raised before its
write); `some c` means the file is rewritten with content `c`. -/
def process_markdown_file (nfd : Str → Str) (oracle : Str → Except Str Str)
    (sched : List (Option Str) → List (Option Str)) (AF : Str) (overwrite : Bool)
    (md_path content : Str) : Option Str :=
  let agg := aggregated_ocr_text nfd oracle sched AF overwrite md_path content
  if agg.isEmpty then none else update_markdown_file content agg

theorem takeWhile_append_all {p : Char → Bool} {xs : Str} (h : ∀ x ∈ xs, p x = true)
    (ys : Str) : (xs ++ ys).takeWhile p = xs ++ ys.takeWhile p := by
  induction xs with
  | nil => simp
  | cons a xs ih =>
    have ha := h a (List.mem_cons_self a xs)
    simp only [List.cons_append, List.takeWhile_cons, ha, if_true]
    rw [ih (fun x hx => h x (List.mem_cons_of_mem a hx))]

theorem dropWhile_append_all {p : Char → Bool} {xs : Str} (h : ∀ x ∈ xs, p x = true)
    (ys : Str) : (xs ++ ys).dropWhile p = ys.dropWhile p := by
  induction xs with
  | nil => simp
  | cons a xs ih =>
    have ha := h a (List.mem_cons_self a xs)
    simp only [List.cons_append, List.dropWhile_cons, ha, if_true]
    exact ih (fun x hx => h x (List.mem_cons_of_mem a hx))

theorem dropWhile_head_false {p : Char → Bool} {l : Str} {c : Char} {cs : Str}
    (h : l.dropWhile p = c :: cs) : p c = false := by
  induction l with
  | nil => simp at h
  | cons a l ih =>
    rw [List.dropWhile_cons] at h
    by_cases hp : p a = true
    · rw [if_pos hp] at h
      exact ih h
    · rw [if_neg hp] at h
      cases h
      exact Bool.eq_false_iff.mpr hp

theorem splitLastQuote_none {l : Str} (h : splitLastQuote l = none) : '"' ∉ l := by
  induction l with
  | nil => simp
  | cons c cs ih =>
    rw [splitLastQuote] at h
    cases hE : splitLastQuote cs with
    | some r => rw [hE] at h; simp at h
    | none =>
      rw [hE] at h
      by_cases hc : c = '"'
      · rw [if_pos hc] at h; simp at h
      · intro hmem
        rcases List.mem_cons.mp hmem with h1 | h2
        · exact hc h1.symm
        · exact ih hE h2

theorem splitLastQuote_some {l : Str} : ∀ {i a : Str}, splitLastQuote l = some (i, a) →
    l = i ++ '"' :: a ∧ '"' ∉ a := by
  induction l with
  | nil => intro i a h; simp [splitLastQuote] at h
  | cons c cs ih =>
    intro i a h
    rw [splitLastQuote] at h
    cases hE : splitLastQuote cs with
    | some r =>
      obtain ⟨ri, ra⟩ := r
      rw [hE] at h
      simp only [Option.some.injEq, Prod.mk.injEq] at h
      obtain ⟨h1, h2⟩ := h
      obtain ⟨hl, hna⟩ := ih hE
      subst h1
      subst h2
      exact ⟨by rw [hl, List.cons_append], hna⟩
    | none =>
      rw [hE] at h
      by_cases hc : c = '"'
      · rw [if_pos hc] at h
        simp only [Option.some.injEq, Prod.mk.injEq] at h
        obtain ⟨h1, h2⟩ := h
        subst h1
        subst h2
        exact ⟨by rw [hc, List.nil_append], splitLastQuote_none hE⟩
      · rw [if_neg hc] at h
        simp at h

theorem splitLastQuote_mk {a : Str} (ha : '"' ∉ a) (i : Str) :
    splitLastQuote (i ++ '"' :: a) = some (i, a) := by
  induction i with
  | nil =>
    rw [List.nil_append, splitLastQuote]
    have h0 : splitLastQuote a = none := by
      cases hE : splitLastQuote a with
      | none => rfl
      | some r =>
        obtain ⟨ri, ra⟩ := r
        obtain ⟨heq, -⟩ := splitLastQuote_some hE
        exact absurd (heq ▸ List.mem_append_right ri (List.mem_cons_self '"' ra)) ha
    rw [h0, if_pos rfl]
  | cons c i ih =>
    rw [List.cons_append, splitLastQuote, ih]

/-- No `"` before the first newline: the greedy `.*` of the inner pattern
finds no closing quote on the current line. -/
def noQuoteFL (s : Str) : Bool := !(s.takeWhile (· != '\n')).contains '"'

theorem noQuoteFL_iff {s : Str} : noQuoteFL s = true ↔ '"' ∉ s.takeWhile (· != '\n') := by
  simp [noQuoteFL]

theorem mem_takeWhile_pred {p : Char → Bool} {l : Str} {a : Char}
    (h : a ∈ l.takeWhile p) : p a = true := List.mem_takeWhile_imp h

/-- Decomposition of a successful inner-pattern match. -/
theorem tryMatchOcr_some {s g1 inner rest : Str}
    (h : tryMatchOcr s = some (g1, inner, rest)) :
    ∃ ws, (∀ c ∈ ws, isPyWs c = true) ∧ g1 = ocrKey ++ ws ++ ['"'] ∧
      s = ocrKey ++ ws ++ '"' :: (inner ++ '"' :: rest) ∧
      (∀ c ∈ inner, c ≠ '\n') ∧ noQuoteFL rest = true := by
  rw [tryMatchOcr] at h
  split_ifs at h with hpre
  split at h
  · simp at h
  · rename_i q tail heq1
    split_ifs at h with hq
    · subst hq
      split at h
      · rename_i r heq2
        obtain ⟨ri, ra⟩ := r
        simp only [Option.some.injEq, Prod.mk.injEq] at h
        obtain ⟨hg1, hinner, hrest⟩ := h
        obtain ⟨hline, hra⟩ := splitLastQuote_some heq2
        obtain ⟨t, ht⟩ := List.isPrefixOf_iff_prefix.mp hpre
        have h4 : (4 : Nat) = ocrKey.length := rfl
        have hdrop4 : s.drop 4 = t := by rw [← ht, h4, List.drop_left]
        have hsplit : s.drop 4 = (s.drop 4).takeWhile isPyWs ++ ('"' :: tail) := by
          conv_lhs => rw [← List.takeWhile_append_dropWhile isPyWs (s.drop 4)]
          rw [heq1]
        have htail : tail = inner ++ '"' :: rest := by
          conv_lhs => rw [← List.takeWhile_append_dropWhile (· != '\n') tail]
          rw [hline, ← hinner, ← hrest, List.append_assoc, List.cons_append]
        refine ⟨(s.drop 4).takeWhile isPyWs, fun c hc => mem_takeWhile_pred hc,
          hg1.symm, ?_, ?_, ?_⟩
        · calc s = ocrKey ++ s.drop 4 := by rw [hdrop4]; exact ht.symm
          _ = ocrKey ++ ((s.drop 4).takeWhile isPyWs ++ ('"' :: tail)) := by rw [← hsplit]
          _ = ocrKey ++ (s.drop 4).takeWhile isPyWs ++ '"' :: (inner ++ '"' :: rest) := by
                rw [htail, List.append_assoc]
        · intro c hc
          rw [← hinner] at hc
          have hcline : c ∈ tail.takeWhile (· != '\n') := by
            rw [hline]
            exact List.mem_append_left _ hc
          simpa using mem_takeWhile_pred hcline
        · rw [noQuoteFL_iff, ← hrest]
          have hnara : ∀ c ∈ ra, (c != '\n') = true := by
            intro c hc
            have hmem : c ∈ tail.takeWhile (· != '\n') := by
              rw [hline]
              exact List.mem_append_right _ (List.mem_cons_of_mem _ hc)
            exact @mem_takeWhile_pred (fun x => x != '\n') _ _ hmem
          rw [takeWhile_append_all hnara]
          intro hmem
          rcases List.mem_append.mp hmem with hmem1 | hmem2
          · exact hra hmem1
          · cases hdw : tail.dropWhile (· != '\n') with
            | nil => rw [hdw] at hmem2; simp at hmem2
            | cons d ds =>
              rw [hdw] at hmem2
              have hd := dropWhile_head_false hdw
              rw [List.takeWhile_cons, hd] at hmem2
              simp at hmem2
      · simp at h

theorem tryMatchOcr_rest_lt {s g1 inner rest : Str}
    (h : tryMatchOcr s = some (g1, inner, rest)) : rest.length < s.length := by
  obtain ⟨ws, -, -, hs, -, -⟩ := tryMatchOcr_some h
  have := congrArg List.length hs
  simp only [List.length_append, List.length_cons] at this
  omega

/-- Evaluation of the inner-pattern match on a string in match shape:
`OCR:` + whitespace + `"` + quote-free newline-free inner + `"` + a rest
whose first line has no quote. -/
theorem tryMatchOcr_mk {ws inner after : Str}
    (hws : ∀ c ∈ ws, isPyWs c = true) (hin : '\n' ∉ inner)
    (hafter : noQuoteFL after = true) :
    tryMatchOcr (ocrKey ++ ws ++ '"' :: (inner ++ '"' :: after)) =
      some (ocrKey ++ ws ++ ['"'], inner, after) := by
  have hin' : ∀ c ∈ inner, (c != '\n') = true := by
    intro c hc
    simp only [bne_iff_ne, ne_eq]
    intro hEq
    exact hin (hEq ▸ hc)
  have hpre : ocrKey.isPrefixOf (ocrKey ++ ws ++ '"' :: (inner ++ '"' :: after)) = true := by
    rw [List.isPrefixOf_iff_prefix, List.append_assoc]
    exact List.prefix_append _ _
  rw [tryMatchOcr, if_pos hpre]
  have h4 : (4 : Nat) = ocrKey.length := rfl
  have hdrop4 : (ocrKey ++ ws ++ '"' :: (inner ++ '"' :: after)).drop 4
      = ws ++ '"' :: (inner ++ '"' :: after) := by
    rw [List.append_assoc, h4, List.drop_left]
  rw [hdrop4]
  have hdw : (ws ++ '"' :: (inner ++ '"' :: after)).dropWhile isPyWs
      = '"' :: (inner ++ '"' :: after) := by
    rw [dropWhile_append_all hws, List.dropWhile_cons, if_neg (by decide)]
  have htw : (ws ++ '"' :: (inner ++ '"' :: after)).takeWhile isPyWs = ws := by
    rw [takeWhile_append_all hws, List.takeWhile_cons, if_neg (by decide), List.append_nil]
  rw [hdw]
  split
  · rename_i habs
    simp at habs
  · rename_i q tail heqc
    injection heqc with h1 h2
    subst h1
    subst h2
    rw [if_pos rfl]
    have hline : (inner ++ '"' :: after).takeWhile (· != '\n')
        = inner ++ '"' :: (after.takeWhile (· != '\n')) := by
      rw [takeWhile_append_all hin', List.takeWhile_cons, if_pos (by decide)]
    have hsq : splitLastQuote (inner ++ '"' :: after.takeWhile (· != '\n'))
        = some (inner, after.takeWhile (· != '\n')) :=
      splitLastQuote_mk (noQuoteFL_iff.mp hafter) inner
    rw [hline, hsq]
    split
    · rename_i r heqr
      injection heqr with h3
      subst h3
      have hdwl : (inner ++ '"' :: after).dropWhile (· != '\n')
          = after.dropWhile (· != '\n') := by
        rw [dropWhile_append_all hin', List.dropWhile_cons, if_pos (by decide)]
      rw [htw, hdwl, List.takeWhile_append_dropWhile]
    · rename_i heqr
      exact absurd heqr (by simp)

theorem subAllOcrF_eq_some {T : Str} {c : Char} {cs g1 inner rest : Str} (fuel : Nat)
    (hE : tryMatchOcr (c :: cs) = some (g1, inner, rest)) :
    subAllOcrF T (fuel + 1) (c :: cs) = g1 ++ T ++ '"' :: subAllOcrF T fuel rest := by
  have hu : subAllOcrF T (fuel + 1) (c :: cs) =
      match tryMatchOcr (c :: cs) with
      | some (g1, _, rest) => g1 ++ T ++ '"' :: subAllOcrF T fuel rest
      | none => c :: subAllOcrF T fuel cs := rfl
  rw [hu, hE]

theorem subAllOcrF_eq_none {T : Str} {c : Char} {cs : Str} (fuel : Nat)
    (hE : tryMatchOcr (c :: cs) = none) :
    subAllOcrF T (fuel + 1) (c :: cs) = c :: subAllOcrF T fuel cs := by
  have hu : subAllOcrF T (fuel + 1) (c :: cs) =
      match tryMatchOcr (c :: cs) with
      | some (g1, _, rest) => g1 ++ T ++ '"' :: subAllOcrF T fuel rest
      | none => c :: subAllOcrF T fuel cs := rfl
  rw [hu, hE]

theorem subAllOcrF_congr (T : Str) : ∀ (m n : Nat) (s : Str), s.length ≤ m → s.length ≤ n →
    subAllOcrF T m s = subAllOcrF T n s := by
  intro m
  induction m with
  | zero =>
    intro n s hm _
    have hs : s = [] := List.eq_nil_of_length_eq_zero (Nat.le_zero.mp hm)
    subst hs
    cases n <;> rfl
  | succ m ih =>
    intro n s hm hn
    cases s with
    | nil => cases n <;> rfl
    | cons c cs =>
      cases n with
      | zero => simp at hn
      | succ n' =>
        simp only [List.length_cons] at hm hn
        cases hE : tryMatchOcr (c :: cs) with
        | some res =>
          obtain ⟨g1, inner, rest⟩ := res
          have hlt := tryMatchOcr_rest_lt hE
          simp only [List.length_cons] at hlt
          rw [subAllOcrF_eq_some m hE, subAllOcrF_eq_some n' hE,
            ih n' rest (by omega) (by omega)]
        | none =>
          rw [subAllOcrF_eq_none m hE, subAllOcrF_eq_none n' hE,
            ih n' cs (by omega) (by omega)]

theorem subAllOcr_nil (T : Str) : subAllOcr T [] = [] := rfl

theorem subAllOcr_cons_some {T : Str} {c : Char} {cs g1 inner rest : Str}
    (hE : tryMatchOcr (c :: cs) = some (g1, inner, rest)) :
    subAllOcr T (c :: cs) = g1 ++ T ++ '"' :: subAllOcr T rest := by
  have hlt := tryMatchOcr_rest_lt hE
  simp only [List.length_cons] at hlt
  rw [subAllOcr, List.length_cons, subAllOcrF_eq_some cs.length hE, subAllOcr,
    subAllOcrF_congr T cs.length rest.length rest (by omega) (le_refl _)]

theorem subAllOcr_cons_none {T : Str} {c : Char} {cs : Str}
    (hE : tryMatchOcr (c :: cs) = none) :
    subAllOcr T (c :: cs) = c :: subAllOcr T cs := by
  rw [subAllOcr, List.length_cons, subAllOcrF_eq_none cs.length hE, subAllOcr]

theorem ocrKey_eq : ocrKey = 'O' :: 'C' :: 'R' :: [':'] := rfl

theorem splitLastQuote_eq_none {l : Str} (h : '"' ∉ l) : splitLastQuote l = none := by
  cases hE : splitLastQuote l with
  | none => rfl
  | some r =>
    obtain ⟨ri, ra⟩ := r
    obtain ⟨heq, -⟩ := splitLastQuote_some hE
    exact absurd (heq ▸ List.mem_append_right ri (List.mem_cons_self '"' ra)) h

theorem tryMatchOcr_none_of_not_prefix {s : Str} (h : ¬ ocrKey <+: s) :
    tryMatchOcr s = none := by
  rw [tryMatchOcr, if_neg]
  intro hpre
  exact h (List.isPrefixOf_iff_prefix.mp hpre)

theorem tryMatchOcr_none_of_head {c : Char} (hc : c ≠ 'O') (cs : Str) :
    tryMatchOcr (c :: cs) = none := by
  apply tryMatchOcr_none_of_not_prefix
  intro hpre
  rw [ocrKey_eq] at hpre
  obtain ⟨h1, -⟩ := List.cons_prefix_cons.mp hpre
  exact hc h1.symm

/-- The head `'O'` of a produced match: a successful match contributes
`g1 ++ T ++ '"' :: …` which starts with `'O'`. -/
theorem subAllOcr_cons_shape {T : Str} (c : Char) (cs : Str) :
    (∃ z : Str, subAllOcr T (c :: cs) = 'O' :: z) ∨
      (∃ z : Str, subAllOcr T (c :: cs) = c :: z ∧ subAllOcr T (c :: cs) = c :: subAllOcr T cs) := by
  cases hE : tryMatchOcr (c :: cs) with
  | some res =>
    obtain ⟨g1, inner, rest⟩ := res
    obtain ⟨ws, -, hg1, -, -, -⟩ := tryMatchOcr_some hE
    refine Or.inl ⟨(('C' :: 'R' :: [':']) ++ ws ++ ['"']) ++ T ++ '"' :: subAllOcr T rest, ?_⟩
    rw [subAllOcr_cons_some hE, hg1, ocrKey_eq]
    simp [List.cons_append, List.append_assoc]
  | none =>
    exact Or.inr ⟨subAllOcr T cs, subAllOcr_cons_none hE, subAllOcr_cons_none hE⟩

theorem subAllOcr_colon_prefix {T es : Str} (h : [':'] <+: subAllOcr T es) :
    [':'] <+: es := by
  cases es with
  | nil => rw [subAllOcr_nil] at h; simp at h
  | cons e es' =>
    rcases @subAllOcr_cons_shape T e es' with ⟨z, hz⟩ | ⟨z, hz, -⟩
    · rw [hz] at h
      obtain ⟨h1, -⟩ := List.cons_prefix_cons.mp h
      exact absurd h1 (by decide)
    · rw [hz] at h
      obtain ⟨h1, -⟩ := List.cons_prefix_cons.mp h
      subst h1
      exact List.cons_prefix_cons.mpr ⟨rfl, List.nil_prefix⟩

theorem subAllOcr_Rcolon_prefix {T ds : Str} (h : ['R', ':'] <+: subAllOcr T ds) :
    ['R', ':'] <+: ds := by
  cases ds with
  | nil => rw [subAllOcr_nil] at h; simp at h
  | cons d ds' =>
    rcases @subAllOcr_cons_shape T d ds' with ⟨z, hz⟩ | ⟨z, hz, hzz⟩
    · rw [hz] at h
      obtain ⟨h1, -⟩ := List.cons_prefix_cons.mp h
      exact absurd h1 (by decide)
    · rw [hzz] at h
      obtain ⟨h1, h2⟩ := List.cons_prefix_cons.mp h
      subst h1
      exact List.cons_prefix_cons.mpr ⟨rfl, subAllOcr_colon_prefix h2⟩

theorem subAllOcr_CRcolon_prefix {T cs : Str} (h : ['C', 'R', ':'] <+: subAllOcr T cs) :
    ['C', 'R', ':'] <+: cs := by
  cases cs with
  | nil => rw [subAllOcr_nil] at h; simp at h
  | cons c cs' =>
    rcases @subAllOcr_cons_shape T c cs' with ⟨z, hz⟩ | ⟨z, hz, hzz⟩
    · rw [hz] at h
      obtain ⟨h1, -⟩ := List.cons_prefix_cons.mp h
      exact absurd h1 (by decide)
    · rw [hzz] at h
      obtain ⟨h1, h2⟩ := List.cons_prefix_cons.mp h
      subst h1
      exact List.cons_prefix_cons.mpr ⟨rfl, subAllOcr_Rcolon_prefix h2⟩

/-- An `OCR:` prefix of the substituted string comes from an `OCR:` prefix
of the original. -/
theorem subAllOcr_ocrKey_prefix {T : Str} {c : Char} {cs : Str}
    (h : ocrKey <+: c :: subAllOcr T cs) : ocrKey <+: c :: cs := by
  rw [ocrKey_eq] at h ⊢
  obtain ⟨h1, h2⟩ := List.cons_prefix_cons.mp h
  exact List.cons_prefix_cons.mpr ⟨h1, subAllOcr_CRcolon_prefix h2⟩

/-- Substitution walks through a whitespace run unchanged. -/
theorem subAllOcr_ws_append {T ws : Str} (h : ∀ x ∈ ws, isPyWs x = true) (v : Str) :
    subAllOcr T (ws ++ v) = ws ++ subAllOcr T v := by
  induction ws with
  | nil => simp
  | cons w ws ih =>
    have hw : w ≠ 'O' := by
      intro hEq
      have hmem := h w (List.mem_cons_self w ws)
      rw [hEq] at hmem
      exact absurd hmem (by decide)
    rw [List.cons_append, subAllOcr_cons_none (tryMatchOcr_none_of_head hw _),
      ih (fun x hx => h x (List.mem_cons_of_mem w hx)), List.cons_append]

theorem takeWhile_append_stop {p : Char → Bool} {xs : Str} (h : ∃ x ∈ xs, p x = false)
    (ys : Str) : (xs ++ ys).takeWhile p = xs.takeWhile p := by
  induction xs with
  | nil =>
    obtain ⟨x, hx, -⟩ := h
    simp at hx
  | cons a xs ih =>
    by_cases hpa : p a = true
    · obtain ⟨x, hx, hpx⟩ := h
      rcases List.mem_cons.mp hx with rfl | hx'
      · rw [hpa] at hpx
        simp at hpx
      · rw [List.cons_append, List.takeWhile_cons, List.takeWhile_cons, hpa,
          ih ⟨x, hx', hpx⟩]
    · have hfa : p a = false := Bool.eq_false_iff.mpr hpa
      rw [List.cons_append, List.takeWhile_cons, List.takeWhile_cons, hfa]
      simp

/-- Substitution preserves "no quote on the first line" (the inserted text
always sits after a newline inside the matched whitespace, because a match
whose opening quote is on the first line needs a quote there already). -/
theorem subAllOcr_noQuoteFL {T : Str} : ∀ (n : Nat) (s : Str), s.length ≤ n →
    noQuoteFL s = true → noQuoteFL (subAllOcr T s) = true := by
  intro n
  induction n with
  | zero =>
    intro s hlen h
    have hs : s = [] := List.eq_nil_of_length_eq_zero (Nat.le_zero.mp hlen)
    subst hs
    rwa [subAllOcr_nil]
  | succ n ih =>
    intro s hlen h
    cases s with
    | nil => rwa [subAllOcr_nil]
    | cons c cs =>
      cases hE : tryMatchOcr (c :: cs) with
      | some res =>
        obtain ⟨g1, inner, rest⟩ := res
        obtain ⟨ws, hws, hg1, hs, -, -⟩ := tryMatchOcr_some hE
        have hnl : '\n' ∈ ws := by
          by_contra hnl
          have hocr : ∀ x ∈ ocrKey ++ ws, (x != '\n') = true := by
            intro x hx
            rcases List.mem_append.mp hx with hx1 | hx2
            · exact (by decide : ∀ x ∈ ocrKey, (x != '\n') = true) x hx1
            · simp only [bne_iff_ne, ne_eq]
              intro hEq
              exact hnl (hEq ▸ hx2)
          rw [noQuoteFL_iff] at h
          apply h
          rw [hs, takeWhile_append_all hocr]
          refine List.mem_append_right _ ?_
          rw [List.takeWhile_cons, if_pos (by decide)]
          exact List.mem_cons_self _ _
        rw [subAllOcr_cons_some hE, noQuoteFL_iff, hg1]
        have hshape : (ocrKey ++ ws ++ ['"']) ++ T ++ '"' :: subAllOcr T rest
            = (ocrKey ++ ws) ++ (['"'] ++ T ++ '"' :: subAllOcr T rest) := by
          simp [List.append_assoc]
        rw [hshape, takeWhile_append_stop ⟨'\n', List.mem_append_right _ hnl, by decide⟩]
        intro hq
        have hmem := (List.takeWhile_prefix _).subset hq
        rcases List.mem_append.mp hmem with hx1 | hx2
        · exact absurd hx1 (by decide)
        · exact absurd (hws '"' hx2) (by decide)
      | none =>
        rw [subAllOcr_cons_none hE]
        rw [noQuoteFL_iff] at h ⊢
        rw [List.takeWhile_cons] at h ⊢
        by_cases hc : (c != '\n') = true
        · rw [if_pos hc] at h ⊢
          simp only [List.mem_cons, not_or] at h ⊢
          obtain ⟨h1, h2⟩ := h
          have hlen' : cs.length ≤ n := by
            simp only [List.length_cons] at hlen
            omega
          have ihcs := ih cs hlen' (noQuoteFL_iff.mpr h2)
          exact ⟨h1, fun hq => (noQuoteFL_iff.mp ihcs) hq⟩
        · rw [if_neg hc] at h ⊢
          simp

/-- Characterization of a failed inner-pattern match at a position whose
`OCR:` prefix is present. -/
theorem tryMatchOcr_none_elim {s : Str} (h : tryMatchOcr s = none)
    (hpre : ocrKey.isPrefixOf s = true) :
    (s.drop 4).dropWhile isPyWs = [] ∨
      (∃ q tail, (s.drop 4).dropWhile isPyWs = q :: tail ∧ q ≠ '"') ∨
      (∃ tail, (s.drop 4).dropWhile isPyWs = '"' :: tail ∧
        splitLastQuote (tail.takeWhile (· != '\n')) = none) := by
  rw [tryMatchOcr, if_pos hpre] at h
  split at h
  · rename_i heq
    exact Or.inl heq
  · rename_i q tail heq
    split_ifs at h with hq
    · subst hq
      split at h
      · simp at h
      · rename_i heq2
        exact Or.inr (Or.inr ⟨tail, heq, heq2⟩)
    · exact Or.inr (Or.inl ⟨q, tail, heq, hq⟩)

/-- A failed inner-pattern match at a position stays failed after the
substitution rewrites the rest of the string. -/
theorem tryMatchOcr_none_preserved {T : Str} {c : Char} {cs : Str}
    (h : tryMatchOcr (c :: cs) = none) :
    tryMatchOcr (c :: subAllOcr T cs) = none := by
  by_cases hpre : ocrKey <+: c :: cs
  case neg =>
    apply tryMatchOcr_none_of_not_prefix
    intro hpre'
    exact hpre ( subAllOcr_ocrKey_prefix hpre')
  case pos =>
    obtain ⟨u, hu⟩ := hpre
    rw [ocrKey_eq] at hu
    injection hu with h1 h2
    have hc : c = 'O' := h1.symm
    have hcs : cs = 'C' :: 'R' :: ':' :: u := h2.symm
    subst hc
    subst hcs
    have hsub : subAllOcr T ('C' :: 'R' :: ':' :: u) = 'C' :: 'R' :: ':' :: subAllOcr T u := by
      rw [subAllOcr_cons_none (tryMatchOcr_none_of_head (by decide) _),
        subAllOcr_cons_none (tryMatchOcr_none_of_head (by decide) _),
        subAllOcr_cons_none (tryMatchOcr_none_of_head (by decide) _)]
    rw [hsub]
    have hform : ('O' :: 'C' :: 'R' :: ':' :: subAllOcr T u) = ocrKey ++ subAllOcr T u := by
      rw [ocrKey_eq]
      rfl
    have hform0 : ('O' :: 'C' :: 'R' :: ':' :: u : Str) = ocrKey ++ u := by
      rw [ocrKey_eq]
      rfl
    rw [hform]
    rw [hform0] at h
    have hpre1 : ocrKey.isPrefixOf (ocrKey ++ u) = true :=
      List.isPrefixOf_iff_prefix.mpr (List.prefix_append _ _)
    have hpre2 : ocrKey.isPrefixOf (ocrKey ++ subAllOcr T u) = true :=
      List.isPrefixOf_iff_prefix.mpr (List.prefix_append _ _)
    have h4 : (4 : Nat) = ocrKey.length := rfl
    have hd1 : (ocrKey ++ u).drop 4 = u := by rw [h4, List.drop_left]
    have hd2 : (ocrKey ++ subAllOcr T u).drop 4 = subAllOcr T u := by rw [h4, List.drop_left]
    have hws : ∀ x ∈ u.takeWhile isPyWs, isPyWs x = true := fun x hx => mem_takeWhile_pred hx
    have hsubu : subAllOcr T u = u.takeWhile isPyWs ++ subAllOcr T (u.dropWhile isPyWs) := by
      conv_lhs => rw [← List.takeWhile_append_dropWhile isPyWs u]
      rw [subAllOcr_ws_append hws]
    have hdw2 : (subAllOcr T u).dropWhile isPyWs
        = (subAllOcr T (u.dropWhile isPyWs)).dropWhile isPyWs := by
      rw [hsubu, dropWhile_append_all hws]
    rw [tryMatchOcr, if_pos hpre2, hd2, hdw2]
    cases hv : u.dropWhile isPyWs with
    | nil =>
      rw [subAllOcr_nil]
      rfl
    | cons d v' =>
      have hd : isPyWs d = false := dropWhile_head_false hv
      by_cases hdq : d = '"'
      case pos =>
        subst hdq
        have helim := tryMatchOcr_none_elim h hpre1
        rw [hd1, hv] at helim
        rcases helim with habs | ⟨q, tail, heqc, hq⟩ | ⟨tail, heqc, hsq⟩
        · simp at habs
        · injection heqc with hh1 hh2
          exact absurd hh1.symm hq
        · injection heqc with hh1 hh2
          subst hh2
          have hnq : noQuoteFL v' = true := noQuoteFL_iff.mpr (splitLastQuote_none hsq)
          have hnq' : noQuoteFL (subAllOcr T v') = true :=
            subAllOcr_noQuoteFL v'.length v' (le_refl _) hnq
          rw [subAllOcr_cons_none (tryMatchOcr_none_of_head (by decide) _),
            List.dropWhile_cons, if_neg (by decide)]
          split
          · rename_i habs2
            simp at habs2
          · rename_i q2 tail2 heqc2
            injection heqc2 with hg1 hg2
            subst hg1
            subst hg2
            rw [if_pos rfl, splitLastQuote_eq_none (noQuoteFL_iff.mp hnq')]
      case neg =>
        rcases @subAllOcr_cons_shape T d v' with ⟨z, hz⟩ | ⟨z, hz, -⟩
        · rw [hz, List.dropWhile_cons, if_neg (by decide)]
          split
          · rename_i habs2
            simp at habs2
          · rename_i q2 tail2 heqc2
            injection heqc2 with hg1 hg2
            subst hg1
            rw [if_neg (by decide)]
        · rw [hz, List.dropWhile_cons, if_neg (by simp [hd])]
          split
          · rename_i habs2
            simp at habs2
          · rename_i q2 tail2 heqc2
            injection heqc2 with hg1 hg2
            subst hg1
            rw [if_neg hdq]

/-- The inner substitution is idempotent when the inserted text contains
no newline: its image is a fixed point. -/
theorem subAllOcr_normal {T : Str} (hTn : '\n' ∉ T) :
    ∀ (n : Nat) (s : Str), s.length ≤ n →
      subAllOcr T (subAllOcr T s) = subAllOcr T s := by
  intro n
  induction n with
  | zero =>
    intro s hlen
    have hs : s = [] := List.eq_nil_of_length_eq_zero (Nat.le_zero.mp hlen)
    subst hs
    rw [subAllOcr_nil, subAllOcr_nil]
  | succ n ih =>
    intro s hlen
    cases s with
    | nil => rw [subAllOcr_nil, subAllOcr_nil]
    | cons c cs =>
      cases hE : tryMatchOcr (c :: cs) with
      | none =>
        have hlen' : cs.length ≤ n := by
          simp only [List.length_cons] at hlen
          omega
        rw [subAllOcr_cons_none hE,
          subAllOcr_cons_none (tryMatchOcr_none_preserved hE), ih cs hlen']
      | some res =>
        obtain ⟨g1, inner, rest⟩ := res
        obtain ⟨ws, hws, hg1, hs, hinner, hrest⟩ := tryMatchOcr_some hE
        have hlen' : rest.length ≤ n := by
          have := tryMatchOcr_rest_lt hE
          simp only [List.length_cons] at this hlen
          omega
        have hafter : noQuoteFL (subAllOcr T rest) = true :=
          subAllOcr_noQuoteFL rest.length rest (le_refl _) hrest
        have hmk := @tryMatchOcr_mk ws T (subAllOcr T rest)
          hws hTn hafter
        have hshape : (ocrKey ++ ws ++ ['"']) ++ T ++ '"' :: subAllOcr T rest
            = ocrKey ++ ws ++ '"' :: (T ++ '"' :: subAllOcr T rest) := by
          simp [List.append_assoc]
        have hcons : ocrKey ++ ws ++ '"' :: (T ++ '"' :: subAllOcr T rest)
            = 'O' :: ('C' :: 'R' :: [':'] ++ ws ++ '"' :: (T ++ '"' :: subAllOcr T rest)) := by
          rw [ocrKey_eq]
          rfl
        rw [hcons] at hmk
        calc subAllOcr T (subAllOcr T (c :: cs))
            = subAllOcr T (ocrKey ++ ws ++ '"' :: (T ++ '"' :: subAllOcr T rest)) := by
              rw [subAllOcr_cons_some hE, hg1, hshape]
          _ = (ocrKey ++ ws ++ ['"']) ++ T ++ '"' :: subAllOcr T (subAllOcr T rest) := by
              rw [hcons, subAllOcr_cons_some hmk]
          _ = (ocrKey ++ ws ++ ['"']) ++ T ++ '"' :: subAllOcr T rest := by
              rw [ih rest hlen']
          _ = subAllOcr T (c :: cs) := by
              rw [subAllOcr_cons_some hE, hg1]

theorem getLast?_append_ne {l₁ l₂ : Str} (h : l₂ ≠ []) :
    (l₁ ++ l₂).getLast? = l₂.getLast? := by
  rw [List.getLast?_append]
  cases hE : l₂.getLast? with
  | some a => rfl
  | none => exact absurd (List.getLast?_eq_none_iff.mp hE) h

theorem mem_of_getLast?_eq {l : Str} {a : Char} (h : l.getLast? = some a) : a ∈ l := by
  obtain ⟨l', rfl⟩ := List.getLast?_eq_some_iff.mp h
  exact List.mem_append_right _ (List.mem_cons_self a [])

/-- A nonempty suffix of a list ending in `b` contains `b`. -/
theorem mem_of_suffix_concat {y W : Str} {b : Char} (h : y <:+ W ++ [b]) (hne : y ≠ []) :
    b ∈ y := by
  obtain ⟨t, ht⟩ := h
  have hlast := congrArg List.getLast? ht
  rw [getLast?_append_ne hne, List.getLast?_concat] at hlast
  exact mem_of_getLast?_eq hlast

/-- A nonempty prefix of `b :: W` contains `b`. -/
theorem mem_of_prefix_cons {y W : Str} {b : Char} (h : y <+: b :: W) (hne : y ≠ []) :
    b ∈ y := by
  cases y with
  | nil => exact absurd rfl hne
  | cons a y' =>
    obtain ⟨h1, -⟩ := List.cons_prefix_cons.mp h
    exact h1 ▸ List.mem_cons_self a y'

theorem take_ne_nil_of_pos {l : Str} {k : Nat} (hk : 0 < k) (hl : l ≠ []) :
    l.take k ≠ [] := by
  intro h
  have := congrArg List.length h
  rw [List.length_take, List.length_nil] at this
  have := List.length_pos.mpr hl
  omega

theorem drop_ne_nil_of_lt {l : Str} {k : Nat} (hk : k < l.length) : l.drop k ≠ [] := by
  intro h
  have := congrArg List.length h
  rw [List.length_drop, List.length_nil] at this
  omega

theorem mem_of_mem_take {l : Str} {k : Nat} {a : Char} (h : a ∈ l.take k) : a ∈ l :=
  (List.take_prefix k l).subset h

theorem mem_of_mem_drop {l : Str} {k : Nat} {a : Char} (h : a ∈ l.drop k) : a ∈ l :=
  (List.drop_suffix k l).subset h

theorem splitNlDashes_some : ∀ {s fm after : Str}, splitNlDashes s = some (fm, after) →
    s = fm ++ nlDashes ++ after ∧ ¬ nlDashes <:+: fm := by
  intro s
  induction s with
  | nil =>
    intro fm after h
    simp [splitNlDashes] at h
  | cons c cs ih =>
    intro fm after h
    rw [splitNlDashes] at h
    split_ifs at h with hpre
    · simp only [Option.some.injEq, Prod.mk.injEq] at h
      obtain ⟨h1, h2⟩ := h
      subst h1
      obtain ⟨t, ht⟩ := List.isPrefixOf_iff_prefix.mp hpre
      have hdrop : t = cs.drop 3 := by
        have hD := congrArg (List.drop 4) ht
        rw [show (4 : Nat) = nlDashes.length from rfl, List.drop_left] at hD
        exact hD.trans rfl
      constructor
      · rw [← h2, ← hdrop, List.nil_append, ← ht]
      · rw [List.infix_nil]
        decide
    · cases hE : splitNlDashes cs with
      | none => rw [hE] at h; exact absurd h (by simp)
      | some r =>
        obtain ⟨ri, ra⟩ := r
        rw [hE] at h
        simp only [Option.map_some', Option.some.injEq, Prod.mk.injEq] at h
        obtain ⟨h1, h2⟩ := h
        subst h1
        subst h2
        obtain ⟨hseq, hni⟩ := ih hE
        constructor
        · rw [hseq, List.cons_append, List.cons_append]
        · intro hinf
          rcases List.infix_cons_iff.mp hinf with hp | hi
          · apply hpre
            rw [List.isPrefixOf_iff_prefix]
            calc nlDashes <+: c :: ri := hp
              _ <+: c :: cs := by
                  rw [hseq, ← List.cons_append, ← List.cons_append]
                  exact (List.prefix_append _ _).trans (List.prefix_append _ _)
          · exact hni hi

theorem splitNlDashes_mk : ∀ {fm : Str}, ¬ nlDashes <:+: fm →
    ∀ after, splitNlDashes (fm ++ nlDashes ++ after) = some (fm, after) := by
  intro fm
  induction fm with
  | nil =>
    intro _ after
    have hcons : ([] : Str) ++ nlDashes ++ after = '\n' :: ('-' :: '-' :: '-' :: after) := rfl
    have hEq : nlDashes ++ after = '\n' :: ('-' :: '-' :: '-' :: after) := rfl
    have hpp : List.isPrefixOf nlDashes ('\n' :: ('-' :: '-' :: '-' :: after)) = true :=
      List.isPrefixOf_iff_prefix.mpr (hEq ▸ List.prefix_append nlDashes after)
    rw [hcons, splitNlDashes, if_pos hpp]
    rfl
  | cons c fm ih =>
    intro hfm after
    have hshape : (c :: fm) ++ nlDashes ++ after = c :: (fm ++ nlDashes ++ after) := by
      rw [List.cons_append, List.cons_append]
    rw [hshape, splitNlDashes]
    have hnp : ¬ nlDashes.isPrefixOf (c :: (fm ++ nlDashes ++ after)) = true := by
      intro hp
      have hp' := List.isPrefixOf_iff_prefix.mp hp
      have hre : c :: (fm ++ nlDashes ++ after) = (c :: fm) ++ (nlDashes ++ after) := by
        rw [List.cons_append, List.append_assoc]
      rw [hre] at hp'
      rcases prefix_append_cases hp' with ⟨-, hc1⟩ | ⟨hlt, -, hc3⟩
      · exact hfm hc1.isInfix
      · have hne : nlDashes.drop (c :: fm).length ≠ [] := drop_ne_nil_of_lt hlt
        have hc3' : nlDashes.drop (c :: fm).length <+: '\n' :: ('-' :: '-' :: '-' :: after) :=
          hc3
        have hmem : '\n' ∈ nlDashes.drop (c :: fm).length := mem_of_prefix_cons hc3' hne
        have hdec : (nlDashes.drop 1).drop ((c :: fm).length - 1)
            = nlDashes.drop (c :: fm).length := by
          rw [List.drop_drop]
          congr 1
          simp only [List.length_cons]
          omega
        rw [← hdec] at hmem
        exact absurd (mem_of_mem_drop hmem) (by decide)
    rw [if_neg hnp, ih (fun h => hfm (List.infix_cons h)) after]
    rfl

/-- Soundness of the front-matter search: a match decomposes the content,
and group 1 contains no `"\n---"` (the lazy `(.*?)` stops at the first). -/
theorem findFrontMatter_some {content fm after : Str}
    (h : findFrontMatter content = some (fm, after)) :
    content = dashesNl ++ fm ++ nlDashes ++ after ∧ ¬ nlDashes <:+: fm := by
  rw [findFrontMatter] at h
  split_ifs at h with hpre
  obtain ⟨hs, hni⟩ := splitNlDashes_some h
  obtain ⟨t, ht⟩ := List.isPrefixOf_iff_prefix.mp hpre
  have hdropt : content.drop 4 = t := by
    have hD := congrArg (List.drop 4) ht
    rw [show (4 : Nat) = dashesNl.length from rfl, List.drop_left] at hD
    exact hD.symm
  refine ⟨?_, hni⟩
  rw [List.append_assoc, List.append_assoc, ← ht]
  congr 1
  rw [← hdropt, hs, List.append_assoc]

/-- Completeness of the front-matter search on contents in block shape. -/
theorem findFrontMatter_mk {fm : Str} (hfm : ¬ nlDashes <:+: fm) (after : Str) :
    findFrontMatter (dashesNl ++ fm ++ nlDashes ++ after) = some (fm, after) := by
  have hshape : dashesNl ++ fm ++ nlDashes ++ after
      = dashesNl ++ (fm ++ nlDashes ++ after) := by
    simp [List.append_assoc]
  have hpre : dashesNl.isPrefixOf (dashesNl ++ fm ++ nlDashes ++ after) = true := by
    rw [List.isPrefixOf_iff_prefix, hshape]
    exact List.prefix_append _ _
  rw [findFrontMatter, if_pos hpre]
  have hdrop : (dashesNl ++ fm ++ nlDashes ++ after).drop 4 = fm ++ nlDashes ++ after := by
    rw [hshape, show (4 : Nat) = dashesNl.length from rfl, List.drop_left]
  rw [hdrop]
  exact splitNlDashes_mk hfm after

set_option maxHeartbeats 1600000 in
/-- Template expansion is the identity on backslash-free templates. -/
theorem templExpandF_id {g1 whole : Str} : ∀ (n : Nat) (t : Str), t.length < n →
    '\\' ∉ t → templExpandF g1 whole n t = some t := by
  intro n
  induction n with
  | zero =>
    intro t hlen
    simp at hlen
  | succ n ih =>
    intro t hlen hbs
    cases t with
    | nil => rfl
    | cons c cs =>
      have hc : ¬ c = '\\' := fun hEq => hbs (hEq ▸ List.mem_cons_self c cs)
      have hlen' : cs.length < n := by
        simp only [List.length_cons] at hlen
        omega
      have hbs' : '\\' ∉ cs := fun hx => hbs (List.mem_cons_of_mem c hx)
      change (if c = '\\' then _ else (templExpandF g1 whole n cs).map (c :: ·))
          = some (c :: cs)
      rw [if_neg hc, ih cs hlen' hbs']
      rfl

theorem templExpand_id {g1 whole t : Str} (hbs : '\\' ∉ t) :
    templExpand g1 whole t = some t :=
  templExpandF_id (t.length + 1) t (by omega) hbs

/-- Membership in the substituted string: every character comes from the
original string, the inserted text, or is the inserted closing quote. -/
theorem mem_subAllOcr {T : Str} {x : Char} : ∀ (n : Nat) (s : Str), s.length ≤ n →
    x ∈ subAllOcr T s → x ∈ s ∨ x ∈ T ∨ x = '"' := by
  intro n
  induction n with
  | zero =>
    intro s hlen hx
    have hs : s = [] := List.eq_nil_of_length_eq_zero (Nat.le_zero.mp hlen)
    subst hs
    rw [subAllOcr_nil] at hx
    simp at hx
  | succ n ih =>
    intro s hlen hx
    cases s with
    | nil =>
      rw [subAllOcr_nil] at hx
      simp at hx
    | cons c cs =>
      cases hE : tryMatchOcr (c :: cs) with
      | none =>
        rw [subAllOcr_cons_none hE] at hx
        have hlen' : cs.length ≤ n := by
          simp only [List.length_cons] at hlen
          omega
        rcases List.mem_cons.mp hx with rfl | hx'
        · exact Or.inl (List.mem_cons_self _ _)
        · rcases ih cs hlen' hx' with h1 | h2
          · exact Or.inl (List.mem_cons_of_mem c h1)
          · exact Or.inr h2
      | some res =>
        obtain ⟨g1, inner, rest⟩ := res
        obtain ⟨ws, hws, hg1, hs, -, -⟩ := tryMatchOcr_some hE
        rw [subAllOcr_cons_some hE, hg1] at hx
        have hlen' : rest.length ≤ n := by
          have := tryMatchOcr_rest_lt hE
          simp only [List.length_cons] at this hlen
          omega
        rcases List.mem_append.mp hx with hx1 | hx2
        · rcases List.mem_append.mp hx1 with hx3 | hx4
          · -- x ∈ ocrKey ++ ws ++ ['"']: all of these occur in the original s
            refine Or.inl ?_
            rw [hs]
            rcases List.mem_append.mp hx3 with hx5 | hx6
            · exact List.mem_append_left _ hx5
            · exact List.mem_append_right _ (by
                rcases List.mem_cons.mp hx6 with rfl | habs
                · exact List.mem_cons_self _ _
                · simp at habs)
          · exact Or.inr (Or.inl hx4)
        · rcases List.mem_cons.mp hx2 with rfl | hx'
          · exact Or.inr (Or.inr rfl)
          · rcases ih rest hlen' hx' with h1 | h2
            · refine Or.inl ?_
              rw [hs]
              refine List.mem_append_right _ ?_
              exact List.mem_cons_of_mem _ (List.mem_append_right _ (List.mem_cons_of_mem _ h1))
            · exact Or.inr h2

/-- Walking an `OCR:` prefix through the substitution. -/
theorem subAllOcr_through_ocrKey {T : Str} (u : Str) :
    subAllOcr T ('C' :: 'R' :: ':' :: u) = 'C' :: 'R' :: ':' :: subAllOcr T u := by
  rw [subAllOcr_cons_none (tryMatchOcr_none_of_head (by decide) _),
    subAllOcr_cons_none (tryMatchOcr_none_of_head (by decide) _),
    subAllOcr_cons_none (tryMatchOcr_none_of_head (by decide) _)]

/-- The substitution keeps the presence of `OCR:`. -/
theorem subAllOcr_keeps_ocrKey {T : Str} : ∀ (n : Nat) (s : Str), s.length ≤ n →
    ocrKey <:+: s → ocrKey <:+: subAllOcr T s := by
  intro n
  induction n with
  | zero =>
    intro s hlen h
    have hs : s = [] := List.eq_nil_of_length_eq_zero (Nat.le_zero.mp hlen)
    subst hs
    rw [List.infix_nil] at h
    exact absurd h (by decide)
  | succ n ih =>
    intro s hlen h
    cases s with
    | nil =>
      rw [List.infix_nil] at h
      exact absurd h (by decide)
    | cons c cs =>
      have hlen' : cs.length ≤ n := by
        simp only [List.length_cons] at hlen
        omega
      cases hE : tryMatchOcr (c :: cs) with
      | some res =>
        obtain ⟨g1, inner, rest⟩ := res
        obtain ⟨ws, -, hg1, -, -, -⟩ := tryMatchOcr_some hE
        rw [subAllOcr_cons_some hE, hg1]
        have : ocrKey <+: (ocrKey ++ ws ++ ['"']) ++ T ++ '"' :: subAllOcr T rest := by
          simp only [List.append_assoc]
          exact List.prefix_append _ _
        exact this.isInfix
      | none =>
        rw [subAllOcr_cons_none hE]
        rcases List.infix_cons_iff.mp h with hp | hi
        · obtain ⟨u, hu⟩ := hp
          rw [ocrKey_eq] at hu
          injection hu with h1 h2
          have hcs : cs = 'C' :: 'R' :: ':' :: u := h2.symm
          subst hcs
          rw [subAllOcr_through_ocrKey]
          refine (List.isPrefixOf_iff_prefix.mp ?_).isInfix
          rw [List.isPrefixOf_iff_prefix]
          refine ⟨subAllOcr T u, ?_⟩
          rw [ocrKey_eq, ← h1]
          rfl
        · exact List.infix_cons (ih cs hlen' hi)

theorem subAllOcr_append_no_ocr {T : Str} {B : Str} : ∀ {A : Str},
    (∀ i, i < A.length → ¬ ocrKey <+: (A.drop i ++ B)) →
    subAllOcr T (A ++ B) = A ++ subAllOcr T B := by
  intro A
  induction A with
  | nil =>
    intro _
    simp
  | cons a A ih =>
    intro h
    have h0 : ¬ ocrKey <+: a :: (A ++ B) := by
      intro hp
      apply h 0 (by simp)
      rw [List.drop_zero, List.cons_append]
      exact hp
    have hrec : ∀ i, i < A.length → ¬ ocrKey <+: (A.drop i ++ B) := by
      intro i hi
      have := h (i + 1) (by simp only [List.length_cons]; omega)
      rwa [List.drop_succ_cons] at this
    rw [List.cons_append, subAllOcr_cons_none ( tryMatchOcr_none_of_not_prefix h0),
      ih hrec, List.cons_append]

theorem subAllOcr_id_of_no_ocr {T : Str} : ∀ (n : Nat) (s : Str), s.length ≤ n →
    ¬ ocrKey <:+: s → subAllOcr T s = s := by
  intro n
  induction n with
  | zero =>
    intro s hlen _
    have hs : s = [] := List.eq_nil_of_length_eq_zero (Nat.le_zero.mp hlen)
    subst hs
    rfl
  | succ n ih =>
    intro s hlen h
    cases s with
    | nil => rfl
    | cons c cs =>
      have hlen' : cs.length ≤ n := by
        simp only [List.length_cons] at hlen
        omega
      cases hE : tryMatchOcr (c :: cs) with
      | some res =>
        obtain ⟨g1, inner, rest⟩ := res
        obtain ⟨ws, -, -, hs, -, -⟩ := tryMatchOcr_some hE
        exact absurd ((List.prefix_append _ _).isInfix.trans
          (by rw [← List.append_assoc, ← hs] : ocrKey ++ (ws ++ '"' :: (inner ++ '"' :: rest)) <:+: c :: cs)) h
      | none =>
        rw [subAllOcr_cons_none hE, ih cs hlen' (fun hi => h (List.infix_cons hi))]

theorem subAllOcr_dash1_prefix {T es : Str} (h : ['-'] <+: subAllOcr T es) :
    ['-'] <+: es := by
  cases es with
  | nil => rw [subAllOcr_nil] at h; simp at h
  | cons e es' =>
    rcases @subAllOcr_cons_shape T e es' with ⟨z, hz⟩ | ⟨z, hz, -⟩
    · rw [hz] at h
      obtain ⟨h1, -⟩ := List.cons_prefix_cons.mp h
      exact absurd h1 (by decide)
    · rw [hz] at h
      obtain ⟨h1, -⟩ := List.cons_prefix_cons.mp h
      subst h1
      exact List.cons_prefix_cons.mpr ⟨rfl, List.nil_prefix⟩

theorem subAllOcr_dash2_prefix {T es : Str} (h : ['-', '-'] <+: subAllOcr T es) :
    ['-', '-'] <+: es := by
  cases es with
  | nil => rw [subAllOcr_nil] at h; simp at h
  | cons e es' =>
    rcases @subAllOcr_cons_shape T e es' with ⟨z, hz⟩ | ⟨z, hz, hzz⟩
    · rw [hz] at h
      obtain ⟨h1, -⟩ := List.cons_prefix_cons.mp h
      exact absurd h1 (by decide)
    · rw [hzz] at h
      obtain ⟨h1, h2⟩ := List.cons_prefix_cons.mp h
      subst h1
      exact List.cons_prefix_cons.mpr ⟨rfl, subAllOcr_dash1_prefix h2⟩

theorem subAllOcr_dash3_prefix {T es : Str} (h : ['-', '-', '-'] <+: subAllOcr T es) :
    ['-', '-', '-'] <+: es := by
  cases es with
  | nil => rw [subAllOcr_nil] at h; simp at h
  | cons e es' =>
    rcases @subAllOcr_cons_shape T e es' with ⟨z, hz⟩ | ⟨z, hz, hzz⟩
    · rw [hz] at h
      obtain ⟨h1, -⟩ := List.cons_prefix_cons.mp h
      exact absurd h1 (by decide)
    · rw [hzz] at h
      obtain ⟨h1, h2⟩ := List.cons_prefix_cons.mp h
      subst h1
      exact List.cons_prefix_cons.mpr ⟨rfl, subAllOcr_dash2_prefix h2⟩

/-- The substitution introduces no `"\n---"` when the inserted text has no
newline. -/
theorem subAllOcr_no_nlDashes {T : Str} (hTn : '\n' ∉ T) : ∀ (n : Nat) (s : Str),
    s.length ≤ n → ¬ nlDashes <:+: s → ¬ nlDashes <:+: subAllOcr T s := by
  intro n
  induction n with
  | zero =>
    intro s hlen h
    have hs : s = [] := List.eq_nil_of_length_eq_zero (Nat.le_zero.mp hlen)
    subst hs
    rwa [subAllOcr_nil]
  | succ n ih =>
    intro s hlen h
    cases s with
    | nil => rwa [subAllOcr_nil]
    | cons c cs =>
      have hlen' : cs.length ≤ n := by
        simp only [List.length_cons] at hlen
        omega
      cases hE : tryMatchOcr (c :: cs) with
      | none =>
        rw [subAllOcr_cons_none hE]
        intro hinf
        rcases List.infix_cons_iff.mp hinf with hp | hi
        · rw [show nlDashes = '\n' :: ['-', '-', '-'] from rfl] at hp
          obtain ⟨h1, h2⟩ := List.cons_prefix_cons.mp hp
          have hd3 := subAllOcr_dash3_prefix h2
          apply h
          refine List.IsPrefix.isInfix ?_
          rw [show nlDashes = '\n' :: ['-', '-', '-'] from rfl]
          exact List.cons_prefix_cons.mpr ⟨h1, hd3⟩
        · exact ih cs hlen' (fun hh => h (List.infix_cons hh)) hi
      | some res =>
        obtain ⟨g1, inner, rest⟩ := res
        obtain ⟨ws, hws, hg1, hs, -, -⟩ := tryMatchOcr_some hE
        rw [subAllOcr_cons_some hE, hg1]
        intro hinf
        have hrest_inf : ¬ nlDashes <:+: rest := by
          intro hh
          apply h
          refine hh.trans ?_
          rw [hs]
          refine List.IsSuffix.isInfix ?_
          calc rest <:+ '"' :: rest := ⟨['"'], rfl⟩
            _ <:+ inner ++ '"' :: rest := List.suffix_append _ _
            _ <:+ '"' :: (inner ++ '"' :: rest) := ⟨['"'], rfl⟩
            _ <:+ ocrKey ++ ws ++ '"' :: (inner ++ '"' :: rest) := List.suffix_append _ _
        have hng1 : ¬ nlDashes <:+: (ocrKey ++ ws ++ ['"']) := by
          intro hh
          have hdash : '-' ∈ ocrKey ++ ws ++ ['"'] := hh.subset (by decide)
          rcases List.mem_append.mp hdash with hx1 | hx2
          · rcases List.mem_append.mp hx1 with hx3 | hx4
            · exact absurd hx3 (by decide)
            · exact absurd (hws '-' hx4) (by decide)
          · exact absurd hx2 (by decide)
        have hshape : (ocrKey ++ ws ++ ['"']) ++ T ++ '"' :: subAllOcr T rest
            = ((ocrKey ++ ws ++ ['"']) ++ T) ++ ('"' :: subAllOcr T rest) := by
          rw [List.append_assoc]
        rw [hshape] at hinf
        rcases infix_append_cases hinf with hA | hB | ⟨k, hk0, hklt, hkA, hkB⟩
        · rcases infix_append_cases hA with hA1 | hA2 | ⟨k, hk0, hklt, hkA, hkB⟩
          · exact hng1 hA1
          · exact hTn (hA2.subset (by decide))
          · have hne : nlDashes.take k ≠ [] := take_ne_nil_of_pos hk0 (by decide)
            have := @mem_of_suffix_concat _ (ocrKey ++ ws) _ hkA hne
            exact absurd (mem_of_mem_take this) (by decide)
        · rcases List.infix_cons_iff.mp hB with hp | hi
          · have := mem_of_prefix_cons hp (by decide)
            exact absurd this (by decide)
          · exact (ih rest (by
              have := tryMatchOcr_rest_lt hE
              simp only [List.length_cons] at this hlen
              omega) hrest_inf) hi
        · have hne : nlDashes.drop k ≠ [] := drop_ne_nil_of_lt hklt
          have := mem_of_prefix_cons hkB hne
          exact absurd (mem_of_mem_drop this) (by decide)

theorem update_no_fm {content T : Str} (h : findFrontMatter content = none) :
    update_markdown_file content T
      = some (dashesNl ++ ocrField T ++ nlDashes ++ '\n' :: content) := by
  rw [update_markdown_file, h]

theorem update_some_fm {content fm after T : Str}
    (hf : findFrontMatter content = some (fm, after)) :
    update_markdown_file content T
      = (templExpand fm (dashesNl ++ fm ++ nlDashes)
          (dashesNl ++ (if containsSub ocrKey fm then subAllOcr T fm
            else fm ++ '\n' :: ocrField T) ++ nlDashes)).map (· ++ after) := by
  rw [update_markdown_file, hf]

theorem nlDashes_drop_no_newline {k : Nat} (hk : 0 < k) : '\n' ∉ nlDashes.drop k := by
  intro hmem
  have hdec : (nlDashes.drop 1).drop (k - 1) = nlDashes.drop k := by
    rw [List.drop_drop]
    congr 1
    omega
  rw [← hdec] at hmem
  exact absurd (mem_of_mem_drop hmem) (by decide)

theorem ocrKey_drop_no_newline {k : Nat} (hk : 0 < k) : '\n' ∉ ocrKey.drop k := by
  intro hmem
  have hdec : (ocrKey.drop 1).drop (k - 1) = ocrKey.drop k := by
    rw [List.drop_drop]
    congr 1
    omega
  rw [← hdec] at hmem
  exact absurd (mem_of_mem_drop hmem) (by decide)

theorem mem_ocrField {T : Str} {x : Char} (h : x ∈ ocrField T) :
    x ∈ ocrKey ∨ x = ' ' ∨ x = '"' ∨ x ∈ T := by
  rw [ocrField] at h
  rcases List.mem_append.mp h with h1 | h2
  · exact Or.inl h1
  · rcases List.mem_cons.mp h2 with rfl | h3
    · exact Or.inr (Or.inl rfl)
    · rcases List.mem_cons.mp h3 with rfl | h4
      · exact Or.inr (Or.inr (Or.inl rfl))
      · rcases List.mem_append.mp h4 with h5 | h6
        · exact Or.inr (Or.inr (Or.inr h5))
        · rcases List.mem_cons.mp h6 with rfl | h7
          · exact Or.inr (Or.inr (Or.inl rfl))
          · simp at h7

theorem no_newline_ocrField {T : Str} (hTn : '\n' ∉ T) : '\n' ∉ ocrField T := by
  intro h
  rcases mem_ocrField h with h1 | h2 | h3 | h4
  · exact absurd h1 (by decide)
  · exact absurd h2 (by decide)
  · exact absurd h3 (by decide)
  · exact hTn h4

theorem no_nlDashes_of_no_newline {s : Str} (h : '\n' ∉ s) : ¬ nlDashes <:+: s :=
  fun hinf => h (hinf.subset (by decide))

/-- The freshly written field `OCR: "T"` is already in normal form. -/
theorem subAllOcr_ocrField {T : Str} (hTn : '\n' ∉ T) :
    subAllOcr T (ocrField T) = ocrField T := by
  have hshape : ocrField T = ocrKey ++ [' '] ++ '"' :: (T ++ '"' :: []) := by
    rw [ocrField]
    simp [List.append_assoc]
  have hmk := @tryMatchOcr_mk [' '] T []
    (by decide) hTn (by decide)
  have hcons : ocrKey ++ [' '] ++ '"' :: (T ++ '"' :: [])
      = 'O' :: ('C' :: 'R' :: [':'] ++ [' '] ++ '"' :: (T ++ '"' :: [])) := by
    rw [ocrKey_eq]
    rfl
  rw [hshape, hcons]
  rw [hcons] at hmk
  rw [subAllOcr_cons_some hmk, subAllOcr_nil, ← hcons]
  simp [List.append_assoc]

theorem update_replace_eq {content fm after T : Str}
    (hf : findFrontMatter content = some (fm, after))
    (hocr : containsSub ocrKey fm = true)
    (hb : '\\' ∉ fm) (hTb : '\\' ∉ T) :
    update_markdown_file content T
      = some (dashesNl ++ subAllOcr T fm ++ nlDashes ++ after) := by
  rw [update_some_fm hf, if_pos hocr]
  have hnb : '\\' ∉ dashesNl ++ subAllOcr T fm ++ nlDashes := by
    intro hmem
    rcases List.mem_append.mp hmem with h1 | h2
    · rcases List.mem_append.mp h1 with h3 | h4
      · exact absurd h3 (by decide)
      · rcases mem_subAllOcr fm.length fm (le_refl _) h4 with h5 | h6 | h7
        · exact hb h5
        · exact hTb h6
        · exact absurd h7 (by decide)
    · exact absurd h2 (by decide)
  rw [templExpand_id hnb, Option.map_some']

theorem mem_append_field {fm T : Str} {x : Char} (h : x ∈ fm ++ '\n' :: ocrField T) :
    x ∈ fm ∨ x = '\n' ∨ x ∈ ocrField T := by
  rcases List.mem_append.mp h with h1 | h2
  · exact Or.inl h1
  · rcases List.mem_cons.mp h2 with rfl | h3
    · exact Or.inr (Or.inl rfl)
    · exact Or.inr (Or.inr h3)

theorem update_append_eq {content fm after T : Str}
    (hf : findFrontMatter content = some (fm, after))
    (hocr : containsSub ocrKey fm = false)
    (hb : '\\' ∉ fm) (hTb : '\\' ∉ T) :
    update_markdown_file content T
      = some (dashesNl ++ (fm ++ '\n' :: ocrField T) ++ nlDashes ++ after) := by
  rw [update_some_fm hf, if_neg (by simp [hocr])]
  have hnb : '\\' ∉ dashesNl ++ (fm ++ '\n' :: ocrField T) ++ nlDashes := by
    intro hmem
    rcases List.mem_append.mp hmem with h1 | h2
    · rcases List.mem_append.mp h1 with h3 | h4
      · exact absurd h3 (by decide)
      · rcases mem_append_field h4 with h5 | h6 | h7
        · exact hb h5
        · exact absurd h6 (by decide)
        · rcases mem_ocrField h7 with h8 | h9 | h10 | h11
          · exact absurd h8 (by decide)
          · exact absurd h9 (by decide)
          · exact absurd h10 (by decide)
          · exact hTb h11
    · exact absurd h2 (by decide)
  rw [templExpand_id hnb, Option.map_some']

/-- Writing a block whose front matter is a fixed point of the inner
substitution reproduces the block. -/
theorem update_of_normal_fm {fm after T : Str}
    (hni : ¬ nlDashes <:+: fm)
    (hocr : containsSub ocrKey fm = true)
    (hnorm : subAllOcr T fm = fm)
    (hb : '\\' ∉ fm) (hTb : '\\' ∉ T) :
    update_markdown_file (dashesNl ++ fm ++ nlDashes ++ after) T
      = some (dashesNl ++ fm ++ nlDashes ++ after) := by
  rw [update_replace_eq (findFrontMatter_mk hni after) hocr hb hTb, hnorm]

theorem ocrField_cons {T : Str} :
    ocrField T = 'O' :: ('C' :: 'R' :: [':'] ++ ' ' :: '"' :: (T ++ ['"'])) := by
  rw [ocrField, ocrKey_eq]
  rfl

theorem ocrKey_infix_ocrField {T : Str} : ocrKey <:+: ocrField T := by
  rw [ocrField]
  exact (List.prefix_append _ _).isInfix

theorem no_nlDashes_append_field {fm T : Str} (hni : ¬ nlDashes <:+: fm)
    (hTn : '\n' ∉ T) : ¬ nlDashes <:+: fm ++ '\n' :: ocrField T := by
  intro hinf
  rcases infix_append_cases hinf with hA | hB | ⟨k, hk0, hklt, hkA, hkB⟩
  · exact hni hA
  · rcases List.infix_cons_iff.mp hB with hp | hi
    · rw [show nlDashes = '\n' :: ['-', '-', '-'] from rfl] at hp
      obtain ⟨-, h2⟩ := List.cons_prefix_cons.mp hp
      rw [ocrField_cons] at h2
      obtain ⟨h3, -⟩ := List.cons_prefix_cons.mp h2
      exact absurd h3 (by decide)
    · exact (no_nlDashes_of_no_newline (no_newline_ocrField hTn)) hi
  · have hne : nlDashes.drop k ≠ [] := drop_ne_nil_of_lt hklt
    have := mem_of_prefix_cons hkB hne
    exact nlDashes_drop_no_newline hk0 this

theorem subAllOcr_append_field {fm T : Str} (hocr : containsSub ocrKey fm = false)
    (hTn : '\n' ∉ T) :
    subAllOcr T (fm ++ '\n' :: ocrField T) = fm ++ '\n' :: ocrField T := by
  have hAB : fm ++ '\n' :: ocrField T = (fm ++ ['\n']) ++ ocrField T := by
    rw [List.append_cons]
  rw [hAB]
  have hno : ∀ i, i < (fm ++ ['\n']).length → ¬ ocrKey <+: ((fm ++ ['\n']).drop i ++ ocrField T) := by
    intro i hi hp
    have hiF : i ≤ fm.length := by
      simp only [List.length_append, List.length_cons, List.length_nil] at hi
      omega
    have hdropA : (fm ++ ['\n']).drop i = fm.drop i ++ ['\n'] := by
      rw [List.drop_append_eq_append_drop, Nat.sub_eq_zero_of_le hiF, List.drop_zero]
    rw [hdropA, List.append_assoc] at hp
    have hsing : ['\n'] ++ ocrField T = '\n' :: ocrField T := rfl
    rw [hsing] at hp
    rcases prefix_append_cases hp with ⟨-, hc1⟩ | ⟨hlt, -, hc3⟩
    · exact (containsSub_eq_false_iff ocrKey fm).mp hocr
        (hc1.isInfix.trans (List.drop_suffix i fm).isInfix)
    · have hne : ocrKey.drop (fm.drop i).length ≠ [] := drop_ne_nil_of_lt hlt
      have := mem_of_prefix_cons hc3 hne
      exact absurd (mem_of_mem_drop this) (by decide)
  rw [subAllOcr_append_no_ocr hno, subAllOcr_ocrField hTn]

theorem no_bs_ocrField {T : Str} (hTb : '\\' ∉ T) : '\\' ∉ ocrField T := by
  intro hm
  rcases mem_ocrField hm with h1 | h2 | h3 | h4
  · exact absurd h1 (by decide)
  · exact absurd h2 (by decide)
  · exact absurd h3 (by decide)
  · exact hTb h4

theorem ocrKey_contains_append_field {fm T : Str} :
    containsSub ocrKey (fm ++ '\n' :: ocrField T) = true := by
  apply ( containsSub_iff_infix _ _).mpr
  have h1 : ocrField T <:+ '\n' :: ocrField T := List.suffix_cons _ _
  have h2 : '\n' :: ocrField T <:+ fm ++ '\n' :: ocrField T := List.suffix_append _ _
  exact ocrKey_infix_ocrField.trans (h1.trans h2).isInfix

/-- C2: applying update_markdown_file a second time with the same already-cleaned
OCR text reproduces the file unchanged (merging is idempotent).  This is the
amended form: it holds provided the cleaned text contains no backslash and the
document contains no backslash; `c2_counterexample` shows the original claim
fails for cleaned texts that do contain a backslash, because the prepend branch
inserts the text literally while the next run pushes the front matter through
`re.sub`'s template processing, which halves doubled backslashes. -/
theorem c2_merge_idempotent_amended (content T : Str)
    (hTn : '\n' ∉ T) (hTb : '\\' ∉ T) (hCb : '\\' ∉ content) :
    (update_markdown_file content T).bind (fun d => update_markdown_file d T)
      = update_markdown_file content T := by
  cases hf : findFrontMatter content with
  | none =>
    rw [update_no_fm hf]
    show update_markdown_file (dashesNl ++ ocrField T ++ nlDashes ++ '\n' :: content) T
        = some (dashesNl ++ ocrField T ++ nlDashes ++ '\n' :: content)
    exact update_of_normal_fm
      (no_nlDashes_of_no_newline (no_newline_ocrField hTn))
      (( containsSub_iff_infix _ _).mpr ocrKey_infix_ocrField)
      (subAllOcr_ocrField hTn)
      (no_bs_ocrField hTb) hTb
  | some p =>
    obtain ⟨fm, after⟩ := p
    obtain ⟨hcontent, hni⟩ := findFrontMatter_some hf
    have hbfm : '\\' ∉ fm := by
      intro hm
      apply hCb
      rw [hcontent]
      simp [hm]
    cases hocr : containsSub ocrKey fm with
    | true =>
      rw [update_replace_eq hf hocr hbfm hTb]
      show update_markdown_file (dashesNl ++ subAllOcr T fm ++ nlDashes ++ after) T
          = some (dashesNl ++ subAllOcr T fm ++ nlDashes ++ after)
      exact update_of_normal_fm
        (subAllOcr_no_nlDashes hTn fm.length fm le_rfl hni)
        (( containsSub_iff_infix _ _).mpr
          (subAllOcr_keeps_ocrKey fm.length fm le_rfl
            (( containsSub_iff_infix _ _).mp hocr)))
        (subAllOcr_normal hTn fm.length fm le_rfl)
        (by
          intro hm
          rcases mem_subAllOcr fm.length fm le_rfl hm with h1 | h2 | h3
          · exact hbfm h1
          · exact hTb h2
          · exact absurd h3 (by decide))
        hTb
    | false =>
      rw [update_append_eq hf hocr hbfm hTb]
      show update_markdown_file (dashesNl ++ (fm ++ '\n' :: ocrField T) ++ nlDashes ++ after) T
          = some (dashesNl ++ (fm ++ '\n' :: ocrField T) ++ nlDashes ++ after)
      exact update_of_normal_fm
        (no_nlDashes_append_field hni hTn)
        ocrKey_contains_append_field
        (subAllOcr_append_field hocr hTn)
        (by
          intro hm
          rcases mem_append_field hm with h1 | h2 | h3
          · exact hbfm h1
          · exact absurd h2 (by decide)
          · exact no_bs_ocrField hTb h3)
        hTb

/-- C2 counterexample: the unamended idempotence claim fails.  The OCR text
`a\b` is cleaned by the source to `a\\b` (backslashes doubled); prepending it
to a document with no front matter and then updating once more halves the
doubled backslash through template processing, so the second update changes
the file. -/
theorem c2_counterexample :
    cleanL ['a', '\\', 'b'] = ['a', '\\', '\\', 'b'] ∧
    (update_markdown_file "body".toList ['a', '\\', '\\', 'b']).bind
        (fun d => update_markdown_file d ['a', '\\', '\\', 'b'])
      ≠ update_markdown_file "body".toList ['a', '\\', '\\', 'b'] := by
  decide

/-- Witness for `c2_merge_idempotent_amended` at content `"hello"`, text
`"text"`. -/
theorem c2_merge_idempotent_amended_witness :
    (update_markdown_file "hello".toList "text".toList).bind
        (fun d => update_markdown_file d "text".toList)
      = update_markdown_file "hello".toList "text".toList :=
  c2_merge_idempotent_amended "hello".toList "text".toList
    (by decide) (by decide) (by decide)

/-- C9: on a document with no front-matter block and a nonempty cleaned text,
the merge prepends a fresh block `---\nOCR: "T"\n---\n` and leaves the
original body byte-for-byte unchanged after it. -/
theorem c9_prepend_new_block (content T : Str)
    (hf : findFrontMatter content = none) (_hT : T ≠ []) :
    update_markdown_file content T
      = some (dashesNl ++ ocrField T ++ nlDashes ++ '\n' :: content) :=
  update_no_fm hf

/-- Witness for `c9_prepend_new_block` at content `"body"`, text `"text"`. -/
theorem c9_prepend_new_block_witness :
    update_markdown_file "body".toList "text".toList
      = some (dashesNl ++ ocrField "text".toList ++ nlDashes ++ '\n' :: "body".toList) :=
  c9_prepend_new_block "body".toList "text".toList (by decide) (by decide)

/-- If the inner pattern matches nowhere, the inner substitution is the
identity. -/
theorem subAllOcr_id_of_no_quoted {T : Str} : ∀ (s : Str),
    hasOcrQuoted s = false → subAllOcr T s = s := by
  intro s
  induction s with
  | nil =>
    intro _
    rfl
  | cons c cs ih =>
    intro h
    simp only [hasOcrQuoted, Bool.or_eq_false_iff] at h
    have hnone : tryMatchOcr (c :: cs) = none :=
      Option.not_isSome_iff_eq_none.mp (by simp [h.1])
    rw [subAllOcr_cons_none hnone, ih h.2]

/-- C10 (amended): when the front matter contains the `OCR:` marker but the
quoted-field pattern matches nowhere, the replace branch substitutes nothing
and — provided the front matter contains no backslash, so template processing
is also the identity — the file is written back unchanged and the new text is
silently discarded.  `c10_counterexample` shows the unamended claim (front
matter byte-for-byte unchanged) fails when the front matter contains a
backslash, because `re.sub`'s template processing of the whole block halves
doubled backslashes. -/
theorem c10_unquoted_marker_discards_text (content fm after T : Str)
    (hf : findFrontMatter content = some (fm, after))
    (hocr : containsSub ocrKey fm = true)
    (hq : hasOcrQuoted fm = false)
    (hb : '\\' ∉ fm) :
    update_markdown_file content T = some content := by
  rw [update_some_fm hf, if_pos hocr, subAllOcr_id_of_no_quoted fm hq]
  have hnb : '\\' ∉ dashesNl ++ fm ++ nlDashes := by
    intro hmem
    rcases List.mem_append.mp hmem with h1 | h2
    · rcases List.mem_append.mp h1 with h3 | h4
      · exact absurd h3 (by decide)
      · exact hb h4
    · exact absurd h2 (by decide)
  rw [templExpand_id hnb, Option.map_some', (findFrontMatter_some hf).1]

/-- C10 counterexample: on a front matter holding both an unquoted `OCR:`
line and another line with a (doubled) backslash, the write-back is not the
identity — template processing halves the doubled backslash. -/
theorem c10_counterexample :
    update_markdown_file
        ("---\nk: a".toList ++ '\\' :: '\\' :: "b\nOCR: x\n---\nrest".toList)
        "t".toList
      ≠ some ("---\nk: a".toList ++ '\\' :: '\\' :: "b\nOCR: x\n---\nrest".toList) ∧
    update_markdown_file
        ("---\nk: a".toList ++ '\\' :: '\\' :: "b\nOCR: x\n---\nrest".toList)
        "t".toList
      = some ("---\nk: a".toList ++ '\\' :: "b\nOCR: x\n---\nrest".toList) := by
  constructor
  · decide
  · decide

/-- Witness for `c10_unquoted_marker_discards_text` on the front matter
`title: hi\nOCR: x` (marker present, quoted pattern absent). -/
theorem c10_unquoted_marker_discards_text_witness :
    update_markdown_file "---\ntitle: hi\nOCR: x\n---\nbody".toList "new".toList
      = some "---\ntitle: hi\nOCR: x\n---\nbody".toList :=
  c10_unquoted_marker_discards_text "---\ntitle: hi\nOCR: x\n---\nbody".toList
    "title: hi\nOCR: x".toList "\nbody".toList "new".toList
    (by decide) (by decide) (by decide) (by decide)

/-- The scan passes untouched over a chunk free of the marker, even directly
in front of a marker occurrence: no occurrence can straddle the boundary,
because no proper suffix of `OCR:` starts with `O`. -/
theorem subAllOcr_append_left_no_ocr {T A X : Str}
    (hA : containsSub ocrKey A = false) :
    subAllOcr T (A ++ (ocrKey ++ X)) = A ++ subAllOcr T (ocrKey ++ X) := by
  apply subAllOcr_append_no_ocr
  intro i hi hp
  rcases prefix_append_cases hp with ⟨-, hc1⟩ | ⟨hlt, -, hc3⟩
  · exact (containsSub_eq_false_iff ocrKey A).mp hA
      (hc1.isInfix.trans (List.drop_suffix i A).isInfix)
  · have hm1 : 1 ≤ (A.drop i).length := by
      rw [List.length_drop]
      omega
    have hcons : ocrKey ++ X = 'O' :: ('C' :: 'R' :: ':' :: X) := by
      rw [ocrKey_eq]
      rfl
    rw [hcons] at hc3
    have hne : ocrKey.drop (A.drop i).length ≠ [] := drop_ne_nil_of_lt hlt
    have hO : 'O' ∈ ocrKey.drop (A.drop i).length := mem_of_prefix_cons hc3 hne
    have hdd : ocrKey.drop (A.drop i).length
        = (ocrKey.drop 1).drop ((A.drop i).length - 1) := by
      rw [List.drop_drop]
      congr 1
      omega
    rw [hdd] at hO
    exact absurd (mem_of_mem_drop hO) (by decide)

/-- Action of the inner substitution on a front matter holding exactly one
marker, in quoted-field form: only the quoted value is replaced. -/
theorem subAllOcr_quoted_field {T A ws v B : Str}
    (hA : containsSub ocrKey A = false)
    (hws : ∀ c ∈ ws, isPyWs c = true) (hvn : '\n' ∉ v)
    (hB : containsSub ocrKey B = false) (hBq : noQuoteFL B = true) :
    subAllOcr T (A ++ (ocrKey ++ ws ++ '"' :: (v ++ '"' :: B)))
      = A ++ (ocrKey ++ ws ++ '"' :: (T ++ '"' :: B)) := by
  have hshape : ocrKey ++ ws ++ '"' :: (v ++ '"' :: B)
      = ocrKey ++ (ws ++ '"' :: (v ++ '"' :: B)) := by
    simp [List.append_assoc]
  rw [hshape, subAllOcr_append_left_no_ocr hA]
  have hmk := tryMatchOcr_mk hws hvn hBq
  have hcons : ocrKey ++ (ws ++ '"' :: (v ++ '"' :: B))
      = 'O' :: ('C' :: 'R' :: ':' :: (ws ++ '"' :: (v ++ '"' :: B))) := by
    rw [ocrKey_eq]
    rfl
  have hmk' : tryMatchOcr ('O' :: ('C' :: 'R' :: ':' :: (ws ++ '"' :: (v ++ '"' :: B))))
      = some (ocrKey ++ ws ++ ['"'], v, B) := by
    rw [← hcons, ← List.append_assoc]
    exact hmk
  rw [hcons, subAllOcr_cons_some hmk',
    subAllOcr_id_of_no_ocr B.length B le_rfl ((containsSub_eq_false_iff _ _).mp hB)]
  simp [List.append_assoc]

/-- C8 (amended): on a document whose block's front matter holds exactly one
quoted recognized-text field `OCR:<ws>"v"` — the marker occurring nowhere
else, no quote before the next newline after the field, and no backslash
anywhere in the block or in T — the merge replaces only the quoted value `v`
by `T`; every other character of the block and everything after the closing
delimiter is unchanged.  `c8_counterexample` shows the unamended claim fails
without the backslash proviso: a doubled backslash on another line of the
block is halved by template processing. -/
theorem c8_replace_only_quoted_value (A ws v B rest T : Str)
    (hA : containsSub ocrKey A = false)
    (hws : ∀ c ∈ ws, isPyWs c = true) (hvn : '\n' ∉ v)
    (hB : containsSub ocrKey B = false) (hBq : noQuoteFL B = true)
    (hni : ¬ nlDashes <:+: A ++ (ocrKey ++ ws ++ '"' :: (v ++ '"' :: B)))
    (hbs : '\\' ∉ A ++ (ocrKey ++ ws ++ '"' :: (v ++ '"' :: B)))
    (hTb : '\\' ∉ T) :
    update_markdown_file
        (dashesNl ++ (A ++ (ocrKey ++ ws ++ '"' :: (v ++ '"' :: B))) ++ nlDashes ++ rest) T
      = some (dashesNl ++ (A ++ (ocrKey ++ ws ++ '"' :: (T ++ '"' :: B))) ++ nlDashes ++ rest) := by
  have hf := findFrontMatter_mk hni rest
  have hocr : containsSub ocrKey (A ++ (ocrKey ++ ws ++ '"' :: (v ++ '"' :: B))) = true := by
    apply ( containsSub_iff_infix _ _).mpr
    have h1 : ocrKey <+: ocrKey ++ ws ++ '"' :: (v ++ '"' :: B) :=
      (List.prefix_append ocrKey ws).trans (List.prefix_append _ _)
    have h2 : ocrKey ++ ws ++ '"' :: (v ++ '"' :: B)
        <:+ A ++ (ocrKey ++ ws ++ '"' :: (v ++ '"' :: B)) := List.suffix_append _ _
    exact h1.isInfix.trans h2.isInfix
  rw [update_replace_eq hf hocr hbs hTb, subAllOcr_quoted_field hA hws hvn hB hBq]

/-- C8 counterexample: with a doubled backslash on another line of the block,
the merge does not only replace the quoted value — the write-back halves the
doubled backslash on the unrelated line. -/
theorem c8_counterexample :
    update_markdown_file
        ("---\nk: a".toList ++ '\\' :: '\\' :: "b\nOCR: \"x\"\n---\nbody".toList)
        "t".toList
      ≠ some ("---\nk: a".toList ++ '\\' :: '\\' :: "b\nOCR: \"t\"\n---\nbody".toList) ∧
    update_markdown_file
        ("---\nk: a".toList ++ '\\' :: '\\' :: "b\nOCR: \"x\"\n---\nbody".toList)
        "t".toList
      = some ("---\nk: a".toList ++ '\\' :: "b\nOCR: \"t\"\n---\nbody".toList) := by
  constructor
  · decide
  · decide

/-- Witness for `c8_replace_only_quoted_value` on the block
`title: hi\nOCR: "x"\nend: y` with new text `"new"`. -/
theorem c8_replace_only_quoted_value_witness :
    update_markdown_file
        (dashesNl ++ ("title: hi\n".toList ++ (ocrKey ++ [' '] ++ '"' ::
          ("x".toList ++ '"' :: "\nend: y".toList))) ++ nlDashes ++ "\nbody".toList)
        "new".toList
      = some (dashesNl ++ ("title: hi\n".toList ++ (ocrKey ++ [' '] ++ '"' ::
          ("new".toList ++ '"' :: "\nend: y".toList))) ++ nlDashes ++ "\nbody".toList) :=
  c8_replace_only_quoted_value "title: hi\n".toList [' '] "x".toList
    "\nend: y".toList "\nbody".toList "new".toList
    (by decide) (by decide) (by decide) (by decide) (by decide)
    (by decide) (by decide) (by decide)

/-- C1: a run with the overwrite flag false on a document already carrying
the `OCR:` marker extracts no references and performs no write, whatever
the recognition oracle, the normalizer and the completion order do. -/
theorem c1_marker_skips_file (nfd : Str → Str) (oracle : Str → Except Str Str)
    (sched : List (Option Str) → List (Option Str)) (AF md_path content : Str)
    (hs : ∀ l, (sched l).Perm l)
    (hmark : containsSub ocrKey content = true) :
    extract_image_links content false = [] ∧
    process_markdown_file nfd oracle sched AF false md_path content = none := by
  have hext : extract_image_links content false = [] := by
    rw [extract_image_links]
    simp [hmark]
  refine ⟨hext, ?_⟩
  have hcoll : collected_ocr_texts nfd oracle sched AF false md_path content = [] := by
    rw [collected_ocr_texts, hext]
    exact (hs []).eq_nil
  rw [process_markdown_file]
  show (if (aggregated_ocr_text nfd oracle sched AF false md_path content).isEmpty
      then none
      else update_markdown_file content
        (aggregated_ocr_text nfd oracle sched AF false md_path content)) = none
  rw [aggregated_ocr_text, hcoll]
  rfl

/-- Witness for `c1_marker_skips_file` with the identity completion order
and an always-failing oracle. -/
theorem c1_marker_skips_file_witness :
    extract_image_links "has OCR: here".toList false = [] ∧
    process_markdown_file id (fun _ => Except.error []) id "A".toList false
      "n.md".toList "has OCR: here".toList = none :=
  c1_marker_skips_file id (fun _ => Except.error []) id "A".toList
    "n.md".toList "has OCR: here".toList (fun l => List.Perm.refl l) (by decide)

theorem joinTexts_all_none {rs : List (Option Str)} (h : ∀ r ∈ rs, r = none) :
    joinTexts rs = [] := by
  induction rs with
  | nil => rfl
  | cons r rs ih =>
    have hr : r = none := h r (List.mem_cons_self r rs)
    have ht : ∀ x ∈ rs, x = none := fun x hx => h x (List.mem_cons_of_mem r hx)
    rw [show joinTexts (r :: rs) = r.getD [] ++ joinTexts rs from rfl, hr, ih ht]
    rfl

/-- C7: when recognition fails on every extracted reference — each attempt
yielding an absent result — the aggregated text is empty and no write is
performed; the per-attachment failures never abort the run. -/
theorem c7_all_failures_no_write (nfd : Str → Str) (oracle : Str → Except Str Str)
    (sched : List (Option Str) → List (Option Str)) (AF : Str) (overwrite : Bool)
    (md_path content : Str)
    (hs : ∀ l, (sched l).Perm l)
    (hfail : ∀ link ∈ extract_image_links content overwrite,
      perform_ocr oracle (find_linked_attachment nfd AF md_path link) = none) :
    aggregated_ocr_text nfd oracle sched AF overwrite md_path content = [] ∧
    process_markdown_file nfd oracle sched AF overwrite md_path content = none := by
  have hall : ∀ r ∈ collected_ocr_texts nfd oracle sched AF overwrite md_path content,
      r = none := by
    intro r hr
    rw [collected_ocr_texts] at hr
    have hr' := (hs _).subset hr
    rw [List.mem_map] at hr'
    obtain ⟨link, hlink, hEq⟩ := hr'
    rw [← hEq]
    exact hfail link hlink
  have hagg : aggregated_ocr_text nfd oracle sched AF overwrite md_path content = [] :=
    joinTexts_all_none hall
  refine ⟨hagg, ?_⟩
  rw [process_markdown_file]
  show (if (aggregated_ocr_text nfd oracle sched AF overwrite md_path content).isEmpty
      then none
      else update_markdown_file content
        (aggregated_ocr_text nfd oracle sched AF overwrite md_path content)) = none
  rw [hagg]
  rfl

/-- Witness for `c7_all_failures_no_write`: one image reference, an oracle
that always fails with an empty message (so the retry path is not taken and
recognition yields an absent result). -/
theorem c7_all_failures_no_write_witness :
    aggregated_ocr_text id (fun _ => Except.error []) id "A".toList false
      "n.md".toList "![[a.png]]".toList = [] ∧
    process_markdown_file id (fun _ => Except.error []) id "A".toList false
      "n.md".toList "![[a.png]]".toList = none :=
  c7_all_failures_no_write id (fun _ => Except.error []) id "A".toList false
    "n.md".toList "![[a.png]]".toList (fun l => List.Perm.refl l)
    (by
      intro link hlink
      rw [show extract_image_links "![[a.png]]".toList false = ["a.png".toList]
        from by decide] at hlink
      rw [List.mem_singleton] at hlink
      subst hlink
      rw [perform_ocr_eq]
      decide)
